import Mathlib

/-!
Shallow embedding of `dfa_identify/encoding.py`: the variable `Codec`
(six kinds of SAT variables over a dense 1-based literal range), the
clause generators for exact DFA identification, the two symmetry-breaking
extensions, and the trial driver.  Machine integers are modelled with
`Nat`/`Int` (Python integers are unbounded, so no wrap-around is needed);
the `assert`-guarded accessors are modelled as `Option`-returning checked
variants mirroring the `validate_enc` decorator.
-/

namespace DfaIdentify

/-- Symmetry-breaking mode: `symm_mode` field of `Codec` (`"clique"` or `"bfs"`). -/
inductive SymmMode
  | clique
  | bfs
deriving DecidableEq, Repr

/-- The `Codec` value object from `encoding.py` (fields `n_nodes`, `n_colors`,
`n_tokens`, `symm_mode`). -/
structure Codec where
  n_nodes : Nat
  n_colors : Nat
  n_tokens : Nat
  symm_mode : Option SymmMode
deriving DecidableEq, Repr

namespace Codec

/-- `Codec.counts_default`: number of variables of each kind, order z, x, y, p, t, m. -/
def counts (c : Codec) : List Nat :=
  [ c.n_colors,
    c.n_colors * c.n_nodes,
    c.n_tokens * c.n_colors * c.n_colors,
    (c.n_colors * (c.n_colors - 1)) / 2,
    (c.n_colors * (c.n_colors - 1)) / 2,
    c.n_colors * c.n_tokens ]

/-- `Codec.color_accepting` body (the `z` variables): `sum(counts[:0]) + 1 + color`. -/
def color_accepting (c : Codec) (color : Nat) : Nat :=
  (c.counts.take 0).sum + 1 + color

/-- `Codec.color_node` body (the `x` variables):
`sum(counts[:1]) + 1 + n_colors * node + color`. -/
def color_node (c : Codec) (node color : Nat) : Nat :=
  (c.counts.take 1).sum + 1 + c.n_colors * node + color

/-- `Codec.parent_relation` body (the `y` variables):
`sum(counts[:2]) + 1 + color1 + a * color2 + a**2 * token` with `a = n_colors`. -/
def parent_relation (c : Codec) (token color1 color2 : Nat) : Nat :=
  (c.counts.take 2).sum + 1 + color1 + c.n_colors * color2
    + c.n_colors * c.n_colors * token

/-- `Codec.enumeration_parent` body (the `p` variables):
`sum(counts[:3]) + 1 + color2*(color2-1)//2 + color1`. -/
def enumeration_parent (c : Codec) (color1 color2 : Nat) : Nat :=
  (c.counts.take 3).sum + 1 + (color2 * (color2 - 1)) / 2 + color1

/-- `Codec.transition_relation` body (the `t` variables):
`sum(counts[:4]) + 1 + color2*(color2-1)//2 + color1`. -/
def transition_relation (c : Codec) (color1 color2 : Nat) : Nat :=
  (c.counts.take 4).sum + 1 + (color2 * (color2 - 1)) / 2 + color1

/-- `Codec.enumeration_label` body (the `m` variables):
`sum(counts[:5]) + 1 + n_tokens * color + token`. -/
def enumeration_label (c : Codec) (token color : Nat) : Nat :=
  (c.counts.take 5).sum + 1 + c.n_tokens * color + token

/-- The `validate_enc` range test for one argument: nonnegative and below the bound. -/
def inRange (bound : Nat) (arg : Int) : Prop :=
  0 ≤ arg ∧ arg < (bound : Int)

instance (bound : Nat) (arg : Int) : Decidable (inRange bound arg) := by
  unfold inRange; infer_instance

/-- `color_accepting` as called through `validate_enc`: the decorator asserts
`0 ≤ color < n_colors` before running the body; a failed assert is `none`. -/
def color_accepting_checked (c : Codec) (color : Int) : Option Nat :=
  if inRange c.n_colors color then some (c.color_accepting color.toNat) else none

/-- `color_node` through `validate_enc`: asserts on the `node` and `color` arguments. -/
def color_node_checked (c : Codec) (node color : Int) : Option Nat :=
  if inRange c.n_nodes node ∧ inRange c.n_colors color then
    some (c.color_node node.toNat color.toNat)
  else none

/-- `parent_relation` through `validate_enc`: asserts on `token`, `color1`, `color2`. -/
def parent_relation_checked (c : Codec) (token color1 color2 : Int) : Option Nat :=
  if inRange c.n_tokens token ∧ inRange c.n_colors color1 ∧ inRange c.n_colors color2 then
    some (c.parent_relation token.toNat color1.toNat color2.toNat)
  else none

/-- `enumeration_parent` through `validate_enc`, plus the body's own
`assert color1 < color2`. -/
def enumeration_parent_checked (c : Codec) (color1 color2 : Int) : Option Nat :=
  if inRange c.n_colors color1 ∧ inRange c.n_colors color2 then
    if color1 < color2 then some (c.enumeration_parent color1.toNat color2.toNat)
    else none
  else none

/-- `transition_relation` through `validate_enc`, plus `assert color1 < color2`. -/
def transition_relation_checked (c : Codec) (color1 color2 : Int) : Option Nat :=
  if inRange c.n_colors color1 ∧ inRange c.n_colors color2 then
    if color1 < color2 then some (c.transition_relation color1.toNat color2.toNat)
    else none
  else none

/-- `enumeration_label` through `validate_enc`: asserts on `token` and `color`. -/
def enumeration_label_checked (c : Codec) (token color : Int) : Option Nat :=
  if inRange c.n_tokens token ∧ inRange c.n_colors color then
    some (c.enumeration_label token.toNat color.toNat)
  else none

end Codec

/-- Decoded variable descriptors: `ColorAcceptingVar`, `ColorNodeVar`,
`ParentRelationVar` from `encoding.py` (field `true` is the polarity flag). -/
inductive Var
  | colorAccepting (color : Nat) (pol : Bool)
  | colorNode (color : Nat) (pol : Bool) (node : Nat)
  | parentRelation (parent_color node_color token : Nat) (pol : Bool)
deriving DecidableEq, Repr

/-- `Codec.decode`: `idx = abs(lit) - 1`; `color1 = idx % n_colors`;
`kind_idx = idx // n_colors`; kind 0 if `kind_idx == 0`, kind 1 if
`1 <= kind_idx <= n_nodes`, otherwise the parent-relation branch.
All intermediate subtractions are nonnegative in Python on the branches
where they are evaluated, so `Nat` subtraction is faithful there. -/
def Codec.decode (c : Codec) (lit : Int) : Var :=
  let idx : Nat := lit.natAbs - 1
  let color1 : Nat := idx % c.n_colors
  let pol : Bool := decide (0 < lit)
  let kind_idx : Nat := idx / c.n_colors
  if kind_idx = 0 then
    .colorAccepting color1 pol
  else if 1 ≤ kind_idx ∧ kind_idx ≤ c.n_nodes then
    .colorNode color1 pol ((idx - color1) / c.n_colors - 1)
  else
    let tmp : Nat := (idx - c.n_colors * (1 + c.n_nodes)) / c.n_colors
    .parentRelation color1 (tmp % c.n_colors) (tmp / c.n_colors) pol

/-- The APTA interface consumed by the clause generator (spec §6): node
count, alphabet size, accepting/rejecting node lists, and for each
non-root node its parent and the token index of its incoming edge.
The APTA itself is built by an external collaborator (`dfa_identify.graphs`). -/
structure APTA where
  n_nodes : Nat
  n_tokens : Nat
  accepting : List Nat
  rejecting : List Nat
  parent : Nat → Nat
  source : Nat → Nat

/-- `onehot_color_clauses`: each vertex has at least one color (one clause of
all colors per node), then for each node and `i < j` the pairwise at-most-one
clause `[-x(n,i), -x(n,j)]`. -/
def onehot_color_clauses (c : Codec) : List (List Int) :=
  ((List.range c.n_nodes).map fun n =>
    (List.range c.n_colors).map fun col => (c.color_node n col : Int))
  ++ ((List.range c.n_nodes).flatMap fun n =>
      (List.range c.n_colors).flatMap fun i =>
        (List.range' (i + 1) (c.n_colors - (i + 1))).map fun j =>
          [-(c.color_node n i : Int), -(c.color_node n j : Int)])

/-- `tokensXcolors`: `product(range(n_tokens), range(n_colors))`. -/
def tokensXcolors (c : Codec) : List (Nat × Nat) :=
  (List.range c.n_tokens).flatMap fun t =>
    (List.range c.n_colors).map fun col => (t, col)

/-- `onehot_parent_relation_clauses`: each `(token, color1)` targets at least
one color, then pairwise at-most-one over `h < j`. -/
def onehot_parent_relation_clauses (c : Codec) : List (List Int) :=
  ((tokensXcolors c).map fun ti =>
    (List.range c.n_colors).map fun j => (c.parent_relation ti.1 ti.2 j : Int))
  ++ ((tokensXcolors c).flatMap fun ti =>
      (List.range c.n_colors).flatMap fun h =>
        (List.range' (h + 1) (c.n_colors - (h + 1))).map fun j =>
          [-(c.parent_relation ti.1 ti.2 h : Int),
           -(c.parent_relation ti.1 ti.2 j : Int)])

/-- `partition_by_accepting_clauses`: for each color, `x(n,c) → z(c)` for
accepting nodes and `x(n,c) → ¬z(c)` for rejecting nodes. -/
def partition_by_accepting_clauses (c : Codec) (apta : APTA) : List (List Int) :=
  (List.range c.n_colors).flatMap fun col =>
    (apta.accepting.map fun n =>
      [-(c.color_node n col : Int), (c.color_accepting col : Int)])
    ++ (apta.rejecting.map fun n =>
      [-(c.color_node n col : Int), -(c.color_accepting col : Int)])

/-- `colors_parent_rel_coupling_clauses`: for every non-root node and colors
`(i, j)`, rows 3 and 7 of Table 1, coupling parent color, node color and the
parent relation of the incoming token. -/
def colors_parent_rel_coupling_clauses (c : Codec) (apta : APTA) : List (List Int) :=
  (List.range' 1 (apta.n_nodes - 1)).flatMap fun node =>
    (List.range c.n_colors).flatMap fun i =>
      (List.range c.n_colors).flatMap fun j =>
        [ [-(c.color_node (apta.parent node) i : Int),
           -(c.color_node node j : Int),
           (c.parent_relation (apta.source node) i j : Int)],
          [-(c.color_node (apta.parent node) i : Int),
           (c.color_node node j : Int),
           -(c.parent_relation (apta.source node) i j : Int)] ]

/-- `determination_conflicts`: for every consistency-graph edge and color,
the two endpoints do not share that color. -/
def determination_conflicts (c : Codec) (edges : List (Nat × Nat)) : List (List Int) :=
  edges.flatMap fun e =>
    (List.range c.n_colors).map fun col =>
      [-(c.color_node e.1 col : Int), -(c.color_node e.2 col : Int)]

/-- `symmetry_breaking` (clique seeding): a unit clause `[x(node, color)]`
for each `(color, node)` in `enumerate(clique)`. -/
def symmetry_breaking (c : Codec) (clique : List Nat) : List (List Int) :=
  clique.enum.map fun p => [(c.color_node p.2 p.1 : Int)]

/-- `symmetry_breaking_common` (Ulyantsev 2016 rows 1-7 plus the start-vertex
unit clause): transcribed clause-for-clause from the Python generator. -/
def symmetry_breaking_common (c : Codec) : List (List Int) :=
  [[(c.color_node 0 0 : Int)]]
  ++ (List.range c.n_colors).flatMap fun color2 =>
    (if 0 < color2 then
      [(List.range color2).map fun color1 => (c.enumeration_parent color1 color2 : Int)]
     else [])
    ++ (List.range color2).flatMap fun color1 =>
      (([-(c.transition_relation color1 color2 : Int)]
         ++ (List.range c.n_tokens).map fun token =>
              (c.parent_relation token color1 color2 : Int))
       :: [(c.transition_relation color1 color2 : Int),
           -(c.enumeration_parent color1 color2 : Int)]
       :: ((List.range c.n_tokens).flatMap fun token2 =>
            [ [(c.transition_relation color1 color2 : Int),
               -(c.parent_relation token2 color1 color2 : Int)],
              [-(c.enumeration_parent color1 color2 : Int),
               -(c.enumeration_label token2 color2 : Int),
               (c.parent_relation token2 color1 color2 : Int)],
              ([-(c.parent_relation token2 color1 color2 : Int),
                -(c.enumeration_parent color1 color2 : Int),
                (c.enumeration_label token2 color2 : Int)]
                ++ (List.range token2).map fun token1 =>
                     (c.parent_relation token1 color1 color2 : Int)) ]
            ++ (List.range token2).map fun token1 =>
                 [-(c.enumeration_parent color1 color2 : Int),
                  -(c.enumeration_label token2 color2 : Int),
                  -(c.parent_relation token1 color1 color2 : Int)]))

/-- `symmetry_breaking_bfs` (Ulyantsev 2016 rows 12-15): transcribed
clause-for-clause from the Python generator. -/
def symmetry_breaking_bfs (c : Codec) : List (List Int) :=
  (List.range c.n_colors).flatMap fun color2 =>
    (List.range color2).flatMap fun color1 =>
      ((List.range color1).map fun color3 =>
        [-(c.enumeration_parent color1 color2 : Int),
         -(c.transition_relation color3 color2 : Int)])
      ++ [([-(c.transition_relation color1 color2 : Int),
            (c.enumeration_parent color1 color2 : Int)]
            ++ (List.range color1).map fun color3 =>
                 (c.transition_relation color3 color2 : Int))]
      ++ (if color2 + 1 < c.n_colors then
            ((List.range color1).map fun color3 =>
              [-(c.enumeration_parent color1 color2 : Int),
               -(c.enumeration_parent color3 (color2 + 1) : Int)])
            ++ ((List.range c.n_tokens).flatMap fun token2 =>
                 (List.range token2).map fun token1 =>
                   [-(c.enumeration_parent color1 color2 : Int),
                    -(c.enumeration_parent color1 (color2 + 1) : Int),
                    -(c.enumeration_label token2 color2 : Int),
                    -(c.enumeration_label token1 (color2 + 1) : Int)])
          else [])

/-- `encode_dfa_id`: concatenation of the Table 1 clause families in source
order, then the selected symmetry-breaking extension. -/
def encode_dfa_id (apta : APTA) (c : Codec) (edges : List (Nat × Nat))
    (clique : List Nat) : List (List Int) :=
  onehot_color_clauses c
  ++ partition_by_accepting_clauses c apta
  ++ colors_parent_rel_coupling_clauses c apta
  ++ onehot_parent_relation_clauses c
  ++ determination_conflicts c edges
  ++ (match c.symm_mode with
      | some .clique => symmetry_breaking c clique
      | some .bfs => symmetry_breaking_common c ++ symmetry_breaking_bfs c
      | none => [])

/-- `dfa_id_encodings`.  Modelled from the spec: the consistency graph
(`apta.consistency_graph()`, from the external `dfa_identify.graphs`
collaborator) and the clique (`networkx` `max_clique`) are not under `src/`,
so their outputs are taken as parameters `edges` and `clique`; the driver
itself (minimum color count, the range of trials, fresh Codec per trial)
is translated from the source. -/
def dfa_id_encodings (apta : APTA) (symm : Option SymmMode)
    (edges : List (Nat × Nat)) (clique : List Nat) :
    List (Codec × List (List Int)) :=
  let min_color := match symm with
    | some .clique => clique.length
    | _ => 1
  (List.range' min_color (apta.n_nodes + 1 - min_color)).map fun k =>
    let codec : Codec := ⟨apta.n_nodes, k, apta.n_tokens, symm⟩
    (codec, encode_dfa_id apta codec edges clique)

/-- A positive literal holds when the variable is assigned true, a negative
one when it is assigned false (spec §6: magnitude = 1-based variable id). -/
def satLit (v : Nat → Bool) (l : Int) : Bool :=
  if 0 < l then v l.natAbs else !(v l.natAbs)

/-- A clause (disjunction of literals) is satisfied when some literal holds. -/
def satClause (v : Nat → Bool) (cl : List Int) : Bool :=
  cl.any (satLit v)

/-- A clause set is satisfied when every clause is. -/
def satAll (v : Nat → Bool) (cls : List (List Int)) : Bool :=
  cls.all (satClause v)

/-! ### The declared index domains and literal images of the six kinds -/

/-- Valid `color` arguments of `color_accepting` (spec §3 table, kind 0). -/
def Codec.acceptingDom (c : Codec) : Finset Nat := Finset.range c.n_colors

/-- Valid `(node, color)` arguments of `color_node` (kind 1). -/
def Codec.nodeDom (c : Codec) : Finset (Nat × Nat) :=
  Finset.range c.n_nodes ×ˢ Finset.range c.n_colors

/-- Valid `(token, color1, color2)` arguments of `parent_relation` (kind 2). -/
def Codec.parentDom (c : Codec) : Finset (Nat × Nat × Nat) :=
  Finset.range c.n_tokens ×ˢ Finset.range c.n_colors ×ˢ Finset.range c.n_colors

/-- Valid ordered `(color1, color2)` arguments with `color1 < color2`
(kinds 3 and 4). -/
def Codec.orderedPairDom (c : Codec) : Finset (Nat × Nat) :=
  (Finset.range c.n_colors ×ˢ Finset.range c.n_colors).filter fun p => p.1 < p.2

/-- Valid `(token, color)` arguments of `enumeration_label` (kind 5). -/
def Codec.labelDom (c : Codec) : Finset (Nat × Nat) :=
  Finset.range c.n_tokens ×ˢ Finset.range c.n_colors

/-- Image of `color_accepting` over its valid domain. -/
def Codec.image0 (c : Codec) : Finset Nat := c.acceptingDom.image c.color_accepting

/-- Image of `color_node` over its valid domain. -/
def Codec.image1 (c : Codec) : Finset Nat :=
  c.nodeDom.image fun p => c.color_node p.1 p.2

/-- Image of `parent_relation` over its valid domain. -/
def Codec.image2 (c : Codec) : Finset Nat :=
  c.parentDom.image fun p => c.parent_relation p.1 p.2.1 p.2.2

/-- Image of `enumeration_parent` over its valid domain. -/
def Codec.image3 (c : Codec) : Finset Nat :=
  c.orderedPairDom.image fun p => c.enumeration_parent p.1 p.2

/-- Image of `transition_relation` over its valid domain. -/
def Codec.image4 (c : Codec) : Finset Nat :=
  c.orderedPairDom.image fun p => c.transition_relation p.1 p.2

/-- Image of `enumeration_label` over its valid domain. -/
def Codec.image5 (c : Codec) : Finset Nat :=
  c.labelDom.image fun p => c.enumeration_label p.1 p.2

/-- The end-to-end scenario APTA of spec §8: root 0 (unknown, no parent),
node 1 accepting reached from the root by token `a` (index 0), node 2
rejecting reached from the root by token `b` (index 1); alphabet of 2 tokens. -/
def apta6 : APTA :=
  ⟨3, 2, [1], [2], fun _ => 0, fun n => if n = 1 then 0 else 1⟩

/-- Codec for the §8 scenario at `n_colors = 2`, no symmetry breaking. -/
def codec6 : Codec := ⟨3, 2, 2, none⟩

/-- Consistency graph of the §8 scenario: node 1 (accepting) and node 2
(rejecting) are distinguishable. -/
def cgraph6 : List (Nat × Nat) := [(1, 2)]

/-- Clause set of the §8 scenario. -/
def L6 : List (List Int) := encode_dfa_id apta6 codec6 cgraph6 []

/-- A satisfying assignment for the §8 scenario: node 0 and node 1 get
color 0 (accepting), node 2 gets color 1; transitions `a: 0→0, 1→0` and
`b: 0→1, 1→0`. -/
def v6 : Nat → Bool := fun m => decide (m ∈ ([1, 3, 5, 8, 9, 10, 14, 15] : List Nat))

/-- One-node APTA (root only) over a one-letter alphabet, used as a
concrete instance. -/
def aptaU : APTA := ⟨1, 1, [], [], fun _ => 0, fun _ => 0⟩

/-- The all-true assignment. -/
def vTrue : Nat → Bool := fun _ => true

/-- Codec of the one-node instance at one color, no symmetry breaking. -/
def codecU : Codec := ⟨1, 1, 1, none⟩

/-- Codec of the one-node instance at two colors in BFS mode. -/
def codec7 : Codec := ⟨1, 2, 1, some .bfs⟩

/-- A satisfying assignment of the BFS-mode encoding of the one-node
instance at two colors: root colored 0, the single token maps color 0 to
color 1 and color 1 to color 0, color 1 is BFS-discovered from color 0. -/
def v7 : Nat → Bool := fun m => decide (m ∈ ([3, 6, 7, 9, 10, 12] : List Nat))

/-- Codec of the §8 scenario APTA used for clique seeding (mode `none`
for the base clause set; the unit clauses are appended separately). -/
def codec8 : Codec := ⟨3, 2, 2, none⟩

/-- A clique of `cgraph6`: nodes 1 and 2. -/
def clique8 : List Nat := [1, 2]

/-- Transposition of two color indices `a` and `b`. -/
def swapFun (a b : Nat) : Nat → Nat := fun x =>
  if x = a then b else if x = b then a else x

/-- Reassignment of a SAT assignment along a color map `f`: a kind 0-2
variable id is decomposed into its indices and its color arguments are
mapped through `f` before reading `v`; ids outside the three supported
kinds are read unchanged. -/
def permAssign (c : Codec) (f : Nat → Nat) (v : Nat → Bool) : Nat → Bool := fun id =>
  if 1 ≤ id ∧ id ≤ c.n_colors then
    v (c.color_accepting (f (id - 1)))
  else if id ≤ c.n_colors + c.n_colors * c.n_nodes then
    v (c.color_node ((id - 1 - c.n_colors) / c.n_colors)
        (f ((id - 1 - c.n_colors) % c.n_colors)))
  else if id ≤ c.n_colors + c.n_colors * c.n_nodes
      + c.n_tokens * c.n_colors * c.n_colors then
    v (c.parent_relation
        ((id - 1 - (c.n_colors + c.n_colors * c.n_nodes)) / (c.n_colors * c.n_colors))
        (f ((id - 1 - (c.n_colors + c.n_colors * c.n_nodes)) % c.n_colors))
        (f ((id - 1 - (c.n_colors + c.n_colors * c.n_nodes)) / c.n_colors % c.n_colors)))
  else v id


/-! ### Closed forms and positivity of the encoders -/

lemma color_accepting_eq (c : Codec) (color : Nat) :
    c.color_accepting color = 1 + color := by
  simp [Codec.color_accepting, Codec.counts]

lemma color_node_eq (c : Codec) (node color : Nat) :
    c.color_node node color = c.n_colors * (1 + node) + color + 1 := by
  simp [Codec.color_node, Codec.counts]; ring

lemma parent_relation_eq (c : Codec) (token color1 color2 : Nat) :
    c.parent_relation token color1 color2
      = c.n_colors * (1 + c.n_nodes + (color2 + c.n_colors * token)) + color1 + 1 := by
  simp [Codec.parent_relation, Codec.counts]; ring

lemma color_accepting_pos (c : Codec) (color : Nat) :
    0 < c.color_accepting color := by
  rw [color_accepting_eq]; omega

lemma color_node_pos (c : Codec) (node color : Nat) :
    0 < c.color_node node color := by
  rw [color_node_eq]; omega

lemma parent_relation_pos (c : Codec) (token color1 color2 : Nat) :
    0 < c.parent_relation token color1 color2 := by
  rw [parent_relation_eq]; omega

/-! ### Decoding helpers: `decode` at an encoded literal, any polarity -/

lemma decode_abs_color_accepting (c : Codec) {color : Nat} (h : color < c.n_colors)
    (lit : Int) (habs : lit.natAbs = c.color_accepting color) :
    c.decode lit = .colorAccepting color (decide (0 < lit)) := by
  rw [color_accepting_eq] at habs
  simp only [Codec.decode, habs]
  have h1 : 1 + color - 1 = color := by omega
  rw [h1, Nat.div_eq_of_lt h, Nat.mod_eq_of_lt h]
  simp

lemma decode_abs_color_node (c : Codec) {node color : Nat}
    (hn : node < c.n_nodes) (h : color < c.n_colors)
    (lit : Int) (habs : lit.natAbs = c.color_node node color) :
    c.decode lit = .colorNode color (decide (0 < lit)) node := by
  have hk : 0 < c.n_colors := by omega
  rw [color_node_eq] at habs
  simp only [Codec.decode, habs]
  have h1 : c.n_colors * (1 + node) + color + 1 - 1
      = c.n_colors * (1 + node) + color := by omega
  rw [h1, Nat.mul_add_div hk, Nat.mul_add_mod, Nat.mod_eq_of_lt h, Nat.div_eq_of_lt h]
  rw [if_neg (by omega), if_pos (by omega)]
  have h2 : c.n_colors * (1 + node) + color - color = c.n_colors * (1 + node) := by
    omega
  rw [h2, Nat.mul_div_cancel_left _ hk]
  have h3 : 1 + node - 1 = node := by omega
  rw [h3]

lemma decode_abs_parent_relation (c : Codec) {token color1 color2 : Nat}
    (ht : token < c.n_tokens) (h1 : color1 < c.n_colors) (h2 : color2 < c.n_colors)
    (lit : Int) (habs : lit.natAbs = c.parent_relation token color1 color2) :
    c.decode lit = .parentRelation color1 color2 token (decide (0 < lit)) := by
  have hk : 0 < c.n_colors := by omega
  rw [parent_relation_eq] at habs
  simp only [Codec.decode, habs]
  have e1 : c.n_colors * (1 + c.n_nodes + (color2 + c.n_colors * token))
      = c.n_colors * (1 + c.n_nodes) + c.n_colors * (color2 + c.n_colors * token) := by
    ring
  have hidx : c.n_colors * (1 + c.n_nodes + (color2 + c.n_colors * token)) + color1 + 1 - 1
      = c.n_colors * (1 + c.n_nodes + (color2 + c.n_colors * token)) + color1 := by omega
  rw [hidx, Nat.mul_add_div hk, Nat.mul_add_mod, Nat.mod_eq_of_lt h1, Nat.div_eq_of_lt h1]
  rw [if_neg (by omega), if_neg (by omega)]
  have e2 : c.n_colors * (1 + c.n_nodes + (color2 + c.n_colors * token)) + color1
      - c.n_colors * (1 + c.n_nodes) = c.n_colors * (color2 + c.n_colors * token) + color1 := by
    omega
  rw [e2, Nat.mul_add_div hk, Nat.div_eq_of_lt h1]
  have e3 : (color2 + c.n_colors * token + 0) % c.n_colors = color2 := by
    rw [Nat.add_zero, Nat.add_comm, Nat.mul_add_mod, Nat.mod_eq_of_lt h2]
  have e4 : (color2 + c.n_colors * token + 0) / c.n_colors = token := by
    rw [Nat.add_zero, Nat.add_comm, Nat.mul_add_div hk, Nat.div_eq_of_lt h2]
    omega
  rw [e3, e4]

/-! ### Range arithmetic for the six variable kinds -/

lemma pair_code_image (a b : Nat) :
    (Finset.range a ×ˢ Finset.range b).image (fun p : Nat × Nat => b * p.1 + p.2)
      = Finset.range (b * a) := by
  ext m
  simp only [Finset.mem_image, Finset.mem_product, Finset.mem_range]
  constructor
  · rintro ⟨⟨x, y⟩, ⟨hx, hy⟩, rfl⟩
    calc b * x + y < b * (x + 1) := by
          have e : b * (x + 1) = b * x + b := by ring
          omega
      _ ≤ b * a := Nat.mul_le_mul (Nat.le_refl b) hx
  · intro hm
    have hb : 0 < b := by
      by_contra hb
      have hb0 : b = 0 := by omega
      rw [hb0, Nat.zero_mul] at hm
      omega
    refine ⟨⟨m / b, m % b⟩, ⟨?_, Nat.mod_lt _ hb⟩, Nat.div_add_mod m b⟩
    rw [Nat.div_lt_iff_lt_mul hb, Nat.mul_comm]
    exact hm

lemma pair_code_image' (a b : Nat) :
    (Finset.range a ×ˢ Finset.range b).image (fun p : Nat × Nat => a * p.2 + p.1)
      = Finset.range (a * b) := by
  ext m
  simp only [Finset.mem_image, Finset.mem_product, Finset.mem_range]
  constructor
  · rintro ⟨⟨x, y⟩, ⟨hx, hy⟩, rfl⟩
    calc a * y + x < a * (y + 1) := by
          have e : a * (y + 1) = a * y + a := by ring
          omega
      _ ≤ a * b := Nat.mul_le_mul (Nat.le_refl a) hy
  · intro hm
    have ha : 0 < a := by
      by_contra ha
      have ha0 : a = 0 := by omega
      rw [ha0, Nat.zero_mul] at hm
      omega
    refine ⟨⟨m % a, m / a⟩, ⟨Nat.mod_lt _ ha, ?_⟩, Nat.div_add_mod m a⟩
    rw [Nat.div_lt_iff_lt_mul ha, Nat.mul_comm]
    exact hm

lemma triple_code_image (t k : Nat) :
    (Finset.range t ×ˢ Finset.range k ×ˢ Finset.range k).image
        (fun p : Nat × Nat × Nat => p.2.1 + k * p.2.2 + k * k * p.1)
      = Finset.range (t * k * k) := by
  ext m
  simp only [Finset.mem_image, Finset.mem_product, Finset.mem_range]
  constructor
  · rintro ⟨⟨x, y, z⟩, ⟨hx, hy, hz⟩, rfl⟩
    replace hx : x < t := hx
    replace hy : y < k := hy
    replace hz : z < k := hz
    show y + k * z + k * k * x < t * k * k
    have h1 : y + k * z < k * (z + 1) := by
      have e : k * (z + 1) = k * z + k := by ring
      omega
    have h2 : k * (z + 1) ≤ k * k := Nat.mul_le_mul (Nat.le_refl k) hz
    have h3 : k * k * (x + 1) = k * k * x + k * k := by ring
    have h4 : k * k * (x + 1) ≤ k * k * t := Nat.mul_le_mul (Nat.le_refl _) hx
    have e2 : k * k * t = t * k * k := by ring
    omega
  · intro hm
    have hk : 0 < k := by
      by_contra h
      have h0 : k = 0 := by omega
      rw [h0] at hm
      simp at hm
    refine ⟨⟨m / (k * k), m % (k * k) % k, m % (k * k) / k⟩,
      ⟨?_, Nat.mod_lt _ hk, ?_⟩, ?_⟩
    · rw [Nat.div_lt_iff_lt_mul (Nat.mul_pos hk hk)]
      have e : t * (k * k) = t * k * k := by ring
      omega
    · rw [Nat.div_lt_iff_lt_mul hk]
      have := Nat.mod_lt m (Nat.mul_pos hk hk)
      omega
    · show m % (k * k) % k + k * (m % (k * k) / k) + k * k * (m / (k * k)) = m
      have d1 : k * (m % (k * k) / k) + m % (k * k) % k = m % (k * k) :=
        Nat.div_add_mod _ k
      have d2 : k * k * (m / (k * k)) + m % (k * k) = m := Nat.div_add_mod m (k * k)
      omega

lemma tri_succ (x : Nat) : (x + 1) * x / 2 = x * (x - 1) / 2 + x := by
  have h : (x + 1) * x = x * (x - 1) + 2 * x := by
    cases x with
    | zero => rfl
    | succ n => simp [Nat.succ_sub_one]; ring
  omega

lemma tri_mono {x y : Nat} (h : x ≤ y) : x * (x - 1) / 2 ≤ y * (y - 1) / 2 :=
  Nat.div_le_div_right (Nat.mul_le_mul h (Nat.sub_le_sub_right h 1))

lemma tri_code_surj (k : Nat) :
    ∀ m, m < k * (k - 1) / 2 →
      ∃ c1 c2, c1 < c2 ∧ c2 < k ∧ c2 * (c2 - 1) / 2 + c1 = m := by
  induction k with
  | zero => intro m hm; simp at hm
  | succ n ih =>
    intro m hm
    simp only [Nat.add_sub_cancel] at hm
    rw [tri_succ n] at hm
    rcases Nat.lt_or_ge m (n * (n - 1) / 2) with h | h
    · obtain ⟨c1, c2, h1, h2, h3⟩ := ih m h
      exact ⟨c1, c2, h1, Nat.lt_succ_of_lt h2, h3⟩
    · exact ⟨m - n * (n - 1) / 2, n, by omega, Nat.lt_succ_self n, by omega⟩

lemma tri_code_image (k : Nat) :
    ((Finset.range k ×ˢ Finset.range k).filter fun p : Nat × Nat => p.1 < p.2).image
        (fun p : Nat × Nat => p.2 * (p.2 - 1) / 2 + p.1)
      = Finset.range (k * (k - 1) / 2) := by
  ext m
  simp only [Finset.mem_image, Finset.mem_filter, Finset.mem_product, Finset.mem_range]
  constructor
  · rintro ⟨⟨c1, c2⟩, ⟨⟨h1k, h2k⟩, hlt⟩, rfl⟩
    replace h2k : c2 < k := h2k
    replace hlt : c1 < c2 := hlt
    show c2 * (c2 - 1) / 2 + c1 < k * (k - 1) / 2
    have h1 : c2 * (c2 - 1) / 2 + c1 < (c2 + 1) * c2 / 2 := by rw [tri_succ]; omega
    have h2 : (c2 + 1) * ((c2 + 1) - 1) / 2 ≤ k * (k - 1) / 2 := tri_mono h2k
    simp only [Nat.add_sub_cancel] at h2
    omega
  · intro hm
    obtain ⟨c1, c2, h1, h2, h3⟩ := tri_code_surj k m hm
    exact ⟨⟨c1, c2⟩, ⟨⟨h1.trans h2, h2⟩, h1⟩, h3⟩

lemma pair_code_inj {b x1 y1 x2 y2 : Nat} (hy1 : y1 < b) (hy2 : y2 < b)
    (h : b * x1 + y1 = b * x2 + y2) : x1 = x2 ∧ y1 = y2 := by
  have h1 : (b * x1 + y1) % b = y1 := by rw [Nat.mul_add_mod, Nat.mod_eq_of_lt hy1]
  have h2 : (b * x2 + y2) % b = y2 := by rw [Nat.mul_add_mod, Nat.mod_eq_of_lt hy2]
  have hy : y1 = y2 := by rw [← h1, ← h2, h]
  have hb : 0 < b := by omega
  refine ⟨Nat.eq_of_mul_eq_mul_left hb ?_, hy⟩
  omega

lemma tri_code_inj {c1 c2 d1 d2 : Nat} (h1 : c1 < c2) (h2 : d1 < d2)
    (h : c2 * (c2 - 1) / 2 + c1 = d2 * (d2 - 1) / 2 + d1) : c1 = d1 ∧ c2 = d2 := by
  rcases Nat.lt_trichotomy c2 d2 with hlt | heq | hgt
  · exfalso
    have ha : c2 * (c2 - 1) / 2 + c1 < (c2 + 1) * c2 / 2 := by rw [tri_succ]; omega
    have hb : (c2 + 1) * ((c2 + 1) - 1) / 2 ≤ d2 * (d2 - 1) / 2 := tri_mono hlt
    simp only [Nat.add_sub_cancel] at hb
    omega
  · subst heq
    exact ⟨by omega, rfl⟩
  · exfalso
    have ha : d2 * (d2 - 1) / 2 + d1 < (d2 + 1) * d2 / 2 := by rw [tri_succ]; omega
    have hb : (d2 + 1) * ((d2 + 1) - 1) / 2 ≤ c2 * (c2 - 1) / 2 := tri_mono hgt
    simp only [Nat.add_sub_cancel] at hb
    omega

lemma image_shift {α : Type} (off cnt : Nat) (A : Finset α) (f : α → Nat)
    (h : A.image f = Finset.range cnt) :
    A.image (fun x => off + 1 + f x) = Finset.Icc (off + 1) (off + cnt) := by
  ext m
  simp only [Finset.mem_image, Finset.mem_Icc]
  constructor
  · rintro ⟨x, hx, rfl⟩
    have hmem : f x ∈ Finset.range cnt := h ▸ Finset.mem_image_of_mem f hx
    rw [Finset.mem_range] at hmem
    omega
  · rintro ⟨hlo, hhi⟩
    have hmem : m - (off + 1) ∈ Finset.range cnt := by rw [Finset.mem_range]; omega
    rw [← h] at hmem
    obtain ⟨x, hx, hfx⟩ := Finset.mem_image.mp hmem
    exact ⟨x, hx, by omega⟩

lemma Icc_disj (a b a' b' : Nat) (h : b < a') :
    Disjoint (Finset.Icc a b) (Finset.Icc a' b') := by
  rw [Finset.disjoint_left]
  intro x hx hy
  rw [Finset.mem_Icc] at hx hy
  omega

lemma Icc_chain (b d : Nat) (h : b ≤ d) :
    Finset.Icc 1 b ∪ Finset.Icc (b + 1) d = Finset.Icc 1 d := by
  ext x
  simp only [Finset.mem_union, Finset.mem_Icc]
  omega

lemma image0_eq (c : Codec) :
    c.image0 = Finset.Icc ((c.counts.take 0).sum + 1) (c.counts.take 1).sum := by
  have hfun : c.color_accepting
      = fun color => (c.counts.take 0).sum + 1 + (fun x : Nat => x) color := by
    funext color; rw [Codec.color_accepting]
  have hsum : (c.counts.take 1).sum = (c.counts.take 0).sum + c.n_colors := by
    simp [Codec.counts]
  rw [Codec.image0, Codec.acceptingDom, hfun, hsum,
    image_shift _ _ _ _ Finset.image_id']

lemma image1_eq (c : Codec) :
    c.image1 = Finset.Icc ((c.counts.take 1).sum + 1) (c.counts.take 2).sum := by
  have hfun : (fun p : Nat × Nat => c.color_node p.1 p.2)
      = fun p => (c.counts.take 1).sum + 1 + (c.n_colors * p.1 + p.2) := by
    funext p; rw [Codec.color_node]; omega
  have hsum : (c.counts.take 2).sum
      = (c.counts.take 1).sum + c.n_colors * c.n_nodes := by
    simp [Codec.counts]
  rw [Codec.image1, Codec.nodeDom, hfun, hsum,
    image_shift _ _ _ _ (pair_code_image c.n_nodes c.n_colors)]

lemma image2_eq (c : Codec) :
    c.image2 = Finset.Icc ((c.counts.take 2).sum + 1) (c.counts.take 3).sum := by
  have hfun : (fun p : Nat × Nat × Nat => c.parent_relation p.1 p.2.1 p.2.2)
      = fun p => (c.counts.take 2).sum + 1
          + (p.2.1 + c.n_colors * p.2.2 + c.n_colors * c.n_colors * p.1) := by
    funext p; rw [Codec.parent_relation]; omega
  have hsum : (c.counts.take 3).sum
      = (c.counts.take 2).sum + c.n_tokens * c.n_colors * c.n_colors := by
    simp [Codec.counts]; omega
  rw [Codec.image2, Codec.parentDom, hfun, hsum,
    image_shift _ _ _ _ (triple_code_image c.n_tokens c.n_colors)]

lemma image3_eq (c : Codec) :
    c.image3 = Finset.Icc ((c.counts.take 3).sum + 1) (c.counts.take 4).sum := by
  have hfun : (fun p : Nat × Nat => c.enumeration_parent p.1 p.2)
      = fun p => (c.counts.take 3).sum + 1 + (p.2 * (p.2 - 1) / 2 + p.1) := by
    funext p; rw [Codec.enumeration_parent]; omega
  have hsum : (c.counts.take 4).sum
      = (c.counts.take 3).sum + c.n_colors * (c.n_colors - 1) / 2 := by
    simp [Codec.counts]; omega
  rw [Codec.image3, Codec.orderedPairDom, hfun, hsum,
    image_shift _ _ _ _ (tri_code_image c.n_colors)]

lemma image4_eq (c : Codec) :
    c.image4 = Finset.Icc ((c.counts.take 4).sum + 1) (c.counts.take 5).sum := by
  have hfun : (fun p : Nat × Nat => c.transition_relation p.1 p.2)
      = fun p => (c.counts.take 4).sum + 1 + (p.2 * (p.2 - 1) / 2 + p.1) := by
    funext p; rw [Codec.transition_relation]; omega
  have hsum : (c.counts.take 5).sum
      = (c.counts.take 4).sum + c.n_colors * (c.n_colors - 1) / 2 := by
    simp [Codec.counts]; omega
  rw [Codec.image4, Codec.orderedPairDom, hfun, hsum,
    image_shift _ _ _ _ (tri_code_image c.n_colors)]

lemma image5_eq (c : Codec) :
    c.image5 = Finset.Icc ((c.counts.take 5).sum + 1) c.counts.sum := by
  have hfun : (fun p : Nat × Nat => c.enumeration_label p.1 p.2)
      = fun p => (c.counts.take 5).sum + 1 + (c.n_tokens * p.2 + p.1) := by
    funext p; rw [Codec.enumeration_label]; omega
  have hsum : c.counts.sum
      = (c.counts.take 5).sum + c.n_tokens * c.n_colors := by
    simp [Codec.counts]; ring
  rw [Codec.image5, Codec.labelDom, hfun, hsum,
    image_shift _ _ _ _ (pair_code_image' c.n_tokens c.n_colors)]

/-- C1: for every Codec, the six encoders are injective on their valid index
domains (with `color1 < color2` for the two ordered-pair kinds), their images
are pairwise disjoint, and the union of the six images is exactly the
integer interval `[1, sum(counts)]`. -/
theorem C1_variable_ranges_partition (c : Codec) :
    Set.InjOn c.color_accepting ↑c.acceptingDom
    ∧ Set.InjOn (fun p : Nat × Nat => c.color_node p.1 p.2) ↑c.nodeDom
    ∧ Set.InjOn (fun p : Nat × Nat × Nat => c.parent_relation p.1 p.2.1 p.2.2)
        ↑c.parentDom
    ∧ Set.InjOn (fun p : Nat × Nat => c.enumeration_parent p.1 p.2) ↑c.orderedPairDom
    ∧ Set.InjOn (fun p : Nat × Nat => c.transition_relation p.1 p.2) ↑c.orderedPairDom
    ∧ Set.InjOn (fun p : Nat × Nat => c.enumeration_label p.1 p.2) ↑c.labelDom
    ∧ List.Pairwise Disjoint
        [c.image0, c.image1, c.image2, c.image3, c.image4, c.image5]
    ∧ c.image0 ∪ c.image1 ∪ c.image2 ∪ c.image3 ∪ c.image4 ∪ c.image5
        = Finset.Icc 1 c.counts.sum := by
  have t1 : (c.counts.take 1).sum = (c.counts.take 0).sum + c.n_colors := by
    simp [Codec.counts]
  have t2 : (c.counts.take 2).sum
      = (c.counts.take 1).sum + c.n_colors * c.n_nodes := by
    simp [Codec.counts]
  have t3 : (c.counts.take 3).sum
      = (c.counts.take 2).sum + c.n_tokens * c.n_colors * c.n_colors := by
    simp [Codec.counts]; omega
  have t4 : (c.counts.take 4).sum
      = (c.counts.take 3).sum + c.n_colors * (c.n_colors - 1) / 2 := by
    simp [Codec.counts]; omega
  have t5 : (c.counts.take 5).sum
      = (c.counts.take 4).sum + c.n_colors * (c.n_colors - 1) / 2 := by
    simp [Codec.counts]; omega
  have t6 : c.counts.sum = (c.counts.take 5).sum + c.n_tokens * c.n_colors := by
    simp [Codec.counts]; ring
  have t0 : (c.counts.take 0).sum = 0 := rfl
  refine ⟨?_, ?_, ?_, ?_, ?_, ?_, ?_, ?_⟩
  · intro x hx y hy h
    rw [Codec.color_accepting, Codec.color_accepting] at h
    omega
  · intro p hp q hq h
    simp only [Finset.mem_coe, Codec.nodeDom, Finset.mem_product,
      Finset.mem_range] at hp hq
    simp only [Codec.color_node] at h
    have h' : c.n_colors * p.1 + p.2 = c.n_colors * q.1 + q.2 := by omega
    have := pair_code_inj hp.2 hq.2 h'
    rw [Prod.ext_iff]
    exact this
  · intro p hp q hq h
    simp only [Finset.mem_coe, Codec.parentDom, Finset.mem_product,
      Finset.mem_range] at hp hq
    simp only [Codec.parent_relation] at h
    have e1 : ∀ t c1 c2 : Nat, c1 + c.n_colors * c2 + c.n_colors * c.n_colors * t
        = c.n_colors * (c.n_colors * t + c2) + c1 := by intro t c1 c2; ring
    have h' : c.n_colors * (c.n_colors * p.1 + p.2.2) + p.2.1
        = c.n_colors * (c.n_colors * q.1 + q.2.2) + q.2.1 := by
      rw [← e1, ← e1]; omega
    obtain ⟨houter, hc1⟩ := pair_code_inj hp.2.1 hq.2.1 h'
    obtain ⟨ht, hc2⟩ := pair_code_inj hp.2.2 hq.2.2 houter
    rw [Prod.ext_iff, Prod.ext_iff]
    exact ⟨ht, hc1, hc2⟩
  · intro p hp q hq h
    simp only [Finset.mem_coe, Codec.orderedPairDom, Finset.mem_filter,
      Finset.mem_product, Finset.mem_range] at hp hq
    simp only [Codec.enumeration_parent] at h
    have h' : p.2 * (p.2 - 1) / 2 + p.1 = q.2 * (q.2 - 1) / 2 + q.1 := by omega
    have := tri_code_inj hp.2 hq.2 h'
    rw [Prod.ext_iff]
    exact this
  · intro p hp q hq h
    simp only [Finset.mem_coe, Codec.orderedPairDom, Finset.mem_filter,
      Finset.mem_product, Finset.mem_range] at hp hq
    simp only [Codec.transition_relation] at h
    have h' : p.2 * (p.2 - 1) / 2 + p.1 = q.2 * (q.2 - 1) / 2 + q.1 := by omega
    have := tri_code_inj hp.2 hq.2 h'
    rw [Prod.ext_iff]
    exact this
  · intro p hp q hq h
    simp only [Finset.mem_coe, Codec.labelDom, Finset.mem_product,
      Finset.mem_range] at hp hq
    simp only [Codec.enumeration_label] at h
    have h' : c.n_tokens * p.2 + p.1 = c.n_tokens * q.2 + q.1 := by omega
    have := pair_code_inj hp.1 hq.1 h'
    rw [Prod.ext_iff]
    exact ⟨this.2, this.1⟩
  · rw [image0_eq, image1_eq, image2_eq, image3_eq, image4_eq, image5_eq]
    refine List.Pairwise.cons ?_ (List.Pairwise.cons ?_ (List.Pairwise.cons ?_
      (List.Pairwise.cons ?_ (List.Pairwise.cons ?_ (List.pairwise_singleton _ _)))))
    · intro s hs
      simp only [List.mem_cons, List.mem_singleton, List.not_mem_nil] at hs
      rcases hs with rfl | rfl | rfl | rfl | rfl | h
      · exact Icc_disj _ _ _ _ (by omega)
      · exact Icc_disj _ _ _ _ (by omega)
      · exact Icc_disj _ _ _ _ (by omega)
      · exact Icc_disj _ _ _ _ (by omega)
      · exact Icc_disj _ _ _ _ (by omega)
      · exact absurd h (by simp)
    · intro s hs
      simp only [List.mem_cons, List.mem_singleton, List.not_mem_nil] at hs
      rcases hs with rfl | rfl | rfl | rfl | h
      · exact Icc_disj _ _ _ _ (by omega)
      · exact Icc_disj _ _ _ _ (by omega)
      · exact Icc_disj _ _ _ _ (by omega)
      · exact Icc_disj _ _ _ _ (by omega)
      · exact absurd h (by simp)
    · intro s hs
      simp only [List.mem_cons, List.mem_singleton, List.not_mem_nil] at hs
      rcases hs with rfl | rfl | rfl | h
      · exact Icc_disj _ _ _ _ (by omega)
      · exact Icc_disj _ _ _ _ (by omega)
      · exact Icc_disj _ _ _ _ (by omega)
      · exact absurd h (by simp)
    · intro s hs
      simp only [List.mem_cons, List.mem_singleton, List.not_mem_nil] at hs
      rcases hs with rfl | rfl | h
      · exact Icc_disj _ _ _ _ (by omega)
      · exact Icc_disj _ _ _ _ (by omega)
      · exact absurd h (by simp)
    · intro s hs
      simp only [List.mem_singleton] at hs
      rcases hs with rfl
      exact Icc_disj _ _ _ _ (by omega)
  · rw [image0_eq, image1_eq, image2_eq, image3_eq, image4_eq, image5_eq, t0]
    rw [Nat.zero_add, Icc_chain _ _ (by omega), Icc_chain _ _ (by omega),
      Icc_chain _ _ (by omega), Icc_chain _ _ (by omega), Icc_chain _ _ (by omega)]

/-- C2: for every Codec and all valid indices, `decode` is a left inverse of
the kind 0-2 encoders with polarity: it recovers the exact kind, all indices,
and the truth flag (`true` for the positive literal, `false` for the negated
one) for `color_accepting`, `color_node` and `parent_relation`. -/
theorem C2_decode_left_inverse (c : Codec) (node color token color1 color2 : Nat)
    (hn : node < c.n_nodes) (hc : color < c.n_colors) (ht : token < c.n_tokens)
    (h1 : color1 < c.n_colors) (h2 : color2 < c.n_colors) :
    c.decode ((c.color_accepting color : Nat) : Int) = .colorAccepting color true
    ∧ c.decode (-((c.color_accepting color : Nat) : Int)) = .colorAccepting color false
    ∧ c.decode ((c.color_node node color : Nat) : Int) = .colorNode color true node
    ∧ c.decode (-((c.color_node node color : Nat) : Int)) = .colorNode color false node
    ∧ c.decode ((c.parent_relation token color1 color2 : Nat) : Int)
        = .parentRelation color1 color2 token true
    ∧ c.decode (-((c.parent_relation token color1 color2 : Nat) : Int))
        = .parentRelation color1 color2 token false := by
  refine ⟨?_, ?_, ?_, ?_, ?_, ?_⟩
  · have h := decode_abs_color_accepting c hc _ (Int.natAbs_ofNat _)
    rwa [decide_eq_true (Int.natCast_pos.mpr (color_accepting_pos c color))] at h
  · have h := decode_abs_color_accepting c hc (-((c.color_accepting color : Nat) : Int))
      (by simp)
    rwa [decide_eq_false (by have := color_accepting_pos c color; omega)] at h
  · have h := decode_abs_color_node c hn hc _ (Int.natAbs_ofNat _)
    rwa [decide_eq_true (Int.natCast_pos.mpr (color_node_pos c node color))] at h
  · have h := decode_abs_color_node c hn hc (-((c.color_node node color : Nat) : Int))
      (by simp)
    rwa [decide_eq_false (by have := color_node_pos c node color; omega)] at h
  · have h := decode_abs_parent_relation c ht h1 h2 _ (Int.natAbs_ofNat _)
    rwa [decide_eq_true (Int.natCast_pos.mpr (parent_relation_pos c token color1 color2))] at h
  · have h := decode_abs_parent_relation c ht h1 h2
      (-((c.parent_relation token color1 color2 : Nat) : Int)) (by simp)
    rwa [decide_eq_false (by have := parent_relation_pos c token color1 color2; omega)] at h

/-- Witness for C2 at the concrete Codec `(n_nodes, n_colors, n_tokens) = (2, 2, 2)`. -/
theorem C2_decode_left_inverse_witness :
    (⟨2, 2, 2, none⟩ : Codec).decode
        (((⟨2, 2, 2, none⟩ : Codec).color_accepting 1 : Nat) : Int)
      = .colorAccepting 1 true
    ∧ (⟨2, 2, 2, none⟩ : Codec).decode
        (-(((⟨2, 2, 2, none⟩ : Codec).color_accepting 1 : Nat) : Int))
      = .colorAccepting 1 false
    ∧ (⟨2, 2, 2, none⟩ : Codec).decode
        (((⟨2, 2, 2, none⟩ : Codec).color_node 1 1 : Nat) : Int)
      = .colorNode 1 true 1
    ∧ (⟨2, 2, 2, none⟩ : Codec).decode
        (-(((⟨2, 2, 2, none⟩ : Codec).color_node 1 1 : Nat) : Int))
      = .colorNode 1 false 1
    ∧ (⟨2, 2, 2, none⟩ : Codec).decode
        (((⟨2, 2, 2, none⟩ : Codec).parent_relation 1 0 1 : Nat) : Int)
      = .parentRelation 0 1 1 true
    ∧ (⟨2, 2, 2, none⟩ : Codec).decode
        (-(((⟨2, 2, 2, none⟩ : Codec).parent_relation 1 0 1 : Nat) : Int))
      = .parentRelation 0 1 1 false :=
  C2_decode_left_inverse ⟨2, 2, 2, none⟩ 1 1 1 0 1
    (by decide) (by decide) (by decide) (by decide) (by decide)

/-- C3 counterexample: for the Codec `(n_nodes, n_colors, n_tokens) = (1, 2, 1)`
the literal `9` is the auxiliary kind-3 variable `enumeration_parent 0 1`
(the three supported kinds end at `2 + 2 + 4 = 8`), yet `decode 9` neither
raises nor is absent: it silently returns the supported-kind descriptor
`ParentRelationVar(0, 0, 1, true)`, whose token index `1` is out of range
(`n_tokens = 1`) — a wrong descriptor. -/
theorem C3_decode_aux_counterexample :
    (⟨1, 2, 1, none⟩ : Codec).enumeration_parent 0 1 = 9
    ∧ ((⟨1, 2, 1, none⟩ : Codec).counts.take 3).sum = 8
    ∧ (⟨1, 2, 1, none⟩ : Codec).counts.sum = 12
    ∧ (⟨1, 2, 1, none⟩ : Codec).decode 9 = Var.parentRelation 0 0 1 true
    ∧ (⟨1, 2, 1, none⟩ : Codec).n_tokens ≤ 1 := by
  refine ⟨by decide, by decide, by decide, ?_, by decide⟩
  decide

/-- C3 amended: `decode` on any literal whose magnitude lies in the auxiliary
kind 3-5 ranges does not raise; it silently returns a `ParentRelationVar`
descriptor whose token index is `≥ n_tokens` (hence it is not a valid variable
of any supported kind). -/
theorem C3_decode_aux_amended (c : Codec) (lit : Int)
    (hlow : (c.counts.take 3).sum < lit.natAbs)
    (hhigh : lit.natAbs ≤ c.counts.sum) :
    ∃ pc nc tok pol,
      c.decode lit = .parentRelation pc nc tok pol ∧ c.n_tokens ≤ tok := by
  have hs3 : (c.counts.take 3).sum
      = c.n_colors * (1 + c.n_nodes + c.n_tokens * c.n_colors) := by
    simp [Codec.counts]; ring
  have hk : 0 < c.n_colors := by
    rcases Nat.eq_zero_or_pos c.n_colors with h0 | h
    · exfalso
      have : c.counts.sum = 0 := by simp [Codec.counts, h0]
      omega
    · exact h
  set idx : Nat := lit.natAbs - 1 with hidx
  have hge : c.n_colors * (1 + c.n_nodes + c.n_tokens * c.n_colors) ≤ idx := by omega
  have hsplit : c.n_colors * (1 + c.n_nodes + c.n_tokens * c.n_colors)
      = c.n_colors * (1 + c.n_nodes) + c.n_colors * (c.n_tokens * c.n_colors) := by ring
  have hkind : 1 + c.n_nodes + c.n_tokens * c.n_colors ≤ idx / c.n_colors := by
    calc 1 + c.n_nodes + c.n_tokens * c.n_colors
        = c.n_colors * (1 + c.n_nodes + c.n_tokens * c.n_colors) / c.n_colors := by
          rw [Nat.mul_div_cancel_left _ hk]
      _ ≤ idx / c.n_colors := Nat.div_le_div_right hge
  have htok : c.n_tokens
      ≤ (idx - c.n_colors * (1 + c.n_nodes)) / c.n_colors / c.n_colors := by
    have h1 : c.n_colors * (c.n_tokens * c.n_colors)
        ≤ idx - c.n_colors * (1 + c.n_nodes) := by omega
    have h2 : c.n_tokens * c.n_colors
        ≤ (idx - c.n_colors * (1 + c.n_nodes)) / c.n_colors := by
      calc c.n_tokens * c.n_colors
          = c.n_colors * (c.n_tokens * c.n_colors) / c.n_colors := by
            rw [Nat.mul_div_cancel_left _ hk]
        _ ≤ _ := Nat.div_le_div_right h1
    calc c.n_tokens = c.n_colors * c.n_tokens / c.n_colors := by
          rw [Nat.mul_div_cancel_left _ hk]
      _ ≤ _ := Nat.div_le_div_right (by
          calc c.n_colors * c.n_tokens = c.n_tokens * c.n_colors := by ring
            _ ≤ _ := h2)
  refine ⟨idx % c.n_colors,
    (idx - c.n_colors * (1 + c.n_nodes)) / c.n_colors % c.n_colors,
    (idx - c.n_colors * (1 + c.n_nodes)) / c.n_colors / c.n_colors,
    decide (0 < lit), ?_, htok⟩
  simp only [Codec.decode]
  rw [← hidx]
  rw [if_neg (by omega), if_neg (by omega)]

/-- Witness for the C3 amended theorem at Codec `(1, 2, 1)` and literal `9`. -/
theorem C3_decode_aux_amended_witness :
    ∃ pc nc tok pol,
      (⟨1, 2, 1, none⟩ : Codec).decode 9 = .parentRelation pc nc tok pol
      ∧ (⟨1, 2, 1, none⟩ : Codec).n_tokens ≤ tok :=
  C3_decode_aux_amended ⟨1, 2, 1, none⟩ 9 (by decide) (by decide)

/-- C4: every checked accessor call (through the `validate_enc` contract) with
an out-of-range node, color, or token argument fails (returns no literal id),
and `enumeration_parent`/`transition_relation` additionally fail whenever
`color1 ≥ color2`. -/
theorem C4_checked_accessors_fail (c : Codec) (node color token color1 color2 : Int) :
    (¬ Codec.inRange c.n_colors color → c.color_accepting_checked color = none)
    ∧ (¬ (Codec.inRange c.n_nodes node ∧ Codec.inRange c.n_colors color) →
        c.color_node_checked node color = none)
    ∧ (¬ (Codec.inRange c.n_tokens token ∧ Codec.inRange c.n_colors color1
          ∧ Codec.inRange c.n_colors color2) →
        c.parent_relation_checked token color1 color2 = none)
    ∧ (¬ (Codec.inRange c.n_colors color1 ∧ Codec.inRange c.n_colors color2)
          ∨ color2 ≤ color1 →
        c.enumeration_parent_checked color1 color2 = none)
    ∧ (¬ (Codec.inRange c.n_colors color1 ∧ Codec.inRange c.n_colors color2)
          ∨ color2 ≤ color1 →
        c.transition_relation_checked color1 color2 = none)
    ∧ (¬ (Codec.inRange c.n_tokens token ∧ Codec.inRange c.n_colors color) →
        c.enumeration_label_checked token color = none) := by
  refine ⟨?_, ?_, ?_, ?_, ?_, ?_⟩
  · intro h; rw [Codec.color_accepting_checked, if_neg h]
  · intro h; rw [Codec.color_node_checked, if_neg h]
  · intro h; rw [Codec.parent_relation_checked, if_neg h]
  · intro h
    rw [Codec.enumeration_parent_checked]
    rcases h with h | h
    · rw [if_neg h]
    · split
      · rw [if_neg (by omega)]
      · rfl
  · intro h
    rw [Codec.transition_relation_checked]
    rcases h with h | h
    · rw [if_neg h]
    · split
      · rw [if_neg (by omega)]
      · rfl
  · intro h; rw [Codec.enumeration_label_checked, if_neg h]

/-- Witness for C4 at Codec `(1, 1, 1)` with a negative node index, an
overlarge color and token, and a reversed ordered pair. -/
theorem C4_checked_accessors_fail_witness :
    (⟨1, 1, 1, none⟩ : Codec).color_accepting_checked 5 = none
    ∧ (⟨1, 1, 1, none⟩ : Codec).color_node_checked (-1) 5 = none
    ∧ (⟨1, 1, 1, none⟩ : Codec).parent_relation_checked 2 1 0 = none
    ∧ (⟨1, 1, 1, none⟩ : Codec).enumeration_parent_checked 1 0 = none
    ∧ (⟨1, 1, 1, none⟩ : Codec).transition_relation_checked 1 0 = none
    ∧ (⟨1, 1, 1, none⟩ : Codec).enumeration_label_checked 2 5 = none := by
  have h := C4_checked_accessors_fail ⟨1, 1, 1, none⟩ (-1) 5 2 1 0
  exact ⟨h.1 (by decide), h.2.1 (by decide), h.2.2.1 (by decide),
    h.2.2.2.1 (Or.inr (by decide)), h.2.2.2.2.1 (Or.inr (by decide)),
    h.2.2.2.2.2 (by decide)⟩


/-! ### Satisfaction helpers -/

lemma satAll_nil (v : Nat → Bool) : satAll v [] = true := rfl

lemma satAll_append (v : Nat → Bool) (a b : List (List Int)) :
    satAll v (a ++ b) = (satAll v a && satAll v b) := List.all_append

lemma satAll_mem (v : Nat → Bool) {cls : List (List Int)} {cl : List Int}
    (h : satAll v cls = true) (hm : cl ∈ cls) : satClause v cl = true :=
  List.all_eq_true.mp h cl hm

lemma satClause_singleton (v : Nat → Bool) (a : Int) :
    satClause v [a] = true ↔ satLit v a = true := by
  simp [satClause]

lemma satClause_pair (v : Nat → Bool) (a b : Int) :
    satClause v [a, b] = true ↔ satLit v a = true ∨ satLit v b = true := by
  simp [satClause]

lemma satClause_triple (v : Nat → Bool) (a b d : Int) :
    satClause v [a, b, d] = true ↔
      satLit v a = true ∨ satLit v b = true ∨ satLit v d = true := by
  simp [satClause]

lemma satLit_pos (v : Nat → Bool) {n : Nat} (h : 0 < n) :
    satLit v ((n : Nat) : Int) = v n := by
  rw [satLit, if_pos (Int.natCast_pos.mpr h), Int.natAbs_ofNat]

lemma satLit_neg (v : Nat → Bool) {n : Nat} (h : 0 < n) :
    satLit v (-((n : Nat) : Int)) = !(v n) := by
  rw [satLit, if_neg (by omega), Int.natAbs_neg, Int.natAbs_ofNat]

lemma satLit_neg_iff (v : Nat → Bool) {n : Nat} (h : 0 < n) :
    satLit v (-((n : Nat) : Int)) = true ↔ v n = false := by
  rw [satLit_neg v h]
  cases v n <;> simp

lemma satAll_map_range {f : Nat → List Int} (v : Nat → Bool) (n : Nat) :
    satAll v ((List.range n).map f) = true ↔
      ∀ i, i < n → satClause v (f i) = true := by
  rw [satAll, List.all_eq_true]
  constructor
  · intro h i hi
    exact h _ (List.mem_map.mpr ⟨i, List.mem_range.mpr hi, rfl⟩)
  · rintro h cl hcl
    obtain ⟨i, hi, rfl⟩ := List.mem_map.mp hcl
    exact h i (List.mem_range.mp hi)

lemma satAll_flatMap_range {f : Nat → List (List Int)} (v : Nat → Bool) (n : Nat) :
    satAll v ((List.range n).flatMap f) = true ↔
      ∀ i, i < n → satAll v (f i) = true := by
  rw [satAll, List.all_eq_true]
  constructor
  · intro h i hi
    rw [satAll, List.all_eq_true]
    intro cl hcl
    exact h _ (List.mem_flatMap.mpr ⟨i, List.mem_range.mpr hi, hcl⟩)
  · intro h cl hcl
    obtain ⟨i, hi, hcl2⟩ := List.mem_flatMap.mp hcl
    exact List.all_eq_true.mp (h i (List.mem_range.mp hi)) _ hcl2

lemma satAll_map_range' {f : Nat → List Int} (v : Nat → Bool) (s len : Nat) :
    satAll v ((List.range' s len).map f) = true ↔
      ∀ j, s ≤ j → j < s + len → satClause v (f j) = true := by
  rw [satAll, List.all_eq_true]
  constructor
  · intro h j hj1 hj2
    refine h _ (List.mem_map.mpr ⟨j, ?_, rfl⟩)
    rw [List.mem_range']
    exact ⟨j - s, by omega, by omega⟩
  · rintro h cl hcl
    obtain ⟨j, hj, rfl⟩ := List.mem_map.mp hcl
    rw [List.mem_range'] at hj
    obtain ⟨i, hi, rfl⟩ := hj
    exact h _ (by omega) (by omega)

lemma satAll_flatMap_range' {f : Nat → List (List Int)} (v : Nat → Bool) (s len : Nat) :
    satAll v ((List.range' s len).flatMap f) = true ↔
      ∀ j, s ≤ j → j < s + len → satAll v (f j) = true := by
  rw [satAll, List.all_eq_true]
  constructor
  · intro h j hj1 hj2
    rw [satAll, List.all_eq_true]
    intro cl hcl
    refine h _ (List.mem_flatMap.mpr ⟨j, ?_, hcl⟩)
    rw [List.mem_range']
    exact ⟨j - s, by omega, by omega⟩
  · intro h cl hcl
    obtain ⟨j, hj, hcl2⟩ := List.mem_flatMap.mp hcl
    rw [List.mem_range'] at hj
    obtain ⟨i, hi, rfl⟩ := hj
    exact List.all_eq_true.mp (h _ (by omega) (by omega)) _ hcl2

lemma satAll_map_list {A : Type} {f : A → List Int} (v : Nat → Bool) (l : List A) :
    satAll v (l.map f) = true ↔ ∀ x ∈ l, satClause v (f x) = true := by
  rw [satAll, List.all_eq_true]
  constructor
  · intro h x hx
    exact h _ (List.mem_map.mpr ⟨x, hx, rfl⟩)
  · rintro h cl hcl
    obtain ⟨x, hx, rfl⟩ := List.mem_map.mp hcl
    exact h x hx

lemma satAll_flatMap_list {A : Type} {f : A → List (List Int)} (v : Nat → Bool)
    (l : List A) :
    satAll v (l.flatMap f) = true ↔ ∀ x ∈ l, satAll v (f x) = true := by
  rw [satAll, List.all_eq_true]
  constructor
  · intro h x hx
    rw [satAll, List.all_eq_true]
    intro cl hcl
    exact h _ (List.mem_flatMap.mpr ⟨x, hx, hcl⟩)
  · intro h cl hcl
    obtain ⟨x, hx, hcl2⟩ := List.mem_flatMap.mp hcl
    exact List.all_eq_true.mp (h x hx) _ hcl2

lemma satClause_map_range {g : Nat → Int} (v : Nat → Bool) (n : Nat) :
    satClause v ((List.range n).map g) = true ↔
      ∃ i, i < n ∧ satLit v (g i) = true := by
  rw [satClause, List.any_eq_true]
  constructor
  · rintro ⟨l, hl, hsat⟩
    obtain ⟨i, hi, rfl⟩ := List.mem_map.mp hl
    exact ⟨i, List.mem_range.mp hi, hsat⟩
  · rintro ⟨i, hi, hsat⟩
    exact ⟨g i, List.mem_map.mpr ⟨i, List.mem_range.mpr hi, rfl⟩, hsat⟩

lemma satAll_pair_list (v : Nat → Bool) (c1 c2 : List Int) :
    satAll v [c1, c2] = true ↔
      satClause v c1 = true ∧ satClause v c2 = true := by
  simp [satAll]

lemma enumeration_parent_pos (c : Codec) (color1 color2 : Nat) :
    0 < c.enumeration_parent color1 color2 := by
  simp only [Codec.enumeration_parent]; omega

lemma transition_relation_pos (c : Codec) (color1 color2 : Nat) :
    0 < c.transition_relation color1 color2 := by
  simp only [Codec.transition_relation]; omega

lemma enumeration_label_pos (c : Codec) (token color : Nat) :
    0 < c.enumeration_label token color := by
  simp only [Codec.enumeration_label]; omega

lemma mem_tokensXcolors (c : Codec) (p : Nat × Nat) :
    p ∈ tokensXcolors c ↔ p.1 < c.n_tokens ∧ p.2 < c.n_colors := by
  rw [tokensXcolors, List.mem_flatMap]
  constructor
  · rintro ⟨t, ht, hp⟩
    rw [List.mem_map] at hp
    obtain ⟨col, hcol, rfl⟩ := hp
    rw [List.mem_range] at ht
    rw [List.mem_range] at hcol
    exact ⟨ht, hcol⟩
  · rintro ⟨h1, h2⟩
    exact ⟨p.1, List.mem_range.mpr h1,
      List.mem_map.mpr ⟨p.2, List.mem_range.mpr h2, rfl⟩⟩

/-! ### Semantic characterization of the base clause families -/

lemma satAll_onehot_color_iff (c : Codec) (v : Nat → Bool) :
    satAll v (onehot_color_clauses c) = true ↔
      (∀ n, n < c.n_nodes → ∃ col, col < c.n_colors ∧ v (c.color_node n col) = true)
      ∧ (∀ n, n < c.n_nodes → ∀ i j, i < j → j < c.n_colors →
          v (c.color_node n i) = false ∨ v (c.color_node n j) = false) := by
  have hA : ∀ n, (satClause v ((List.range c.n_colors).map
        fun col => (c.color_node n col : Int)) = true
      ↔ ∃ col, col < c.n_colors ∧ v (c.color_node n col) = true) := by
    intro n
    rw [satClause_map_range]
    constructor
    · rintro ⟨i, hi, hsat⟩
      rw [satLit_pos v (color_node_pos c n i)] at hsat
      exact ⟨i, hi, hsat⟩
    · rintro ⟨i, hi, hsat⟩
      exact ⟨i, hi, by rw [satLit_pos v (color_node_pos c n i)]; exact hsat⟩
  have hB : ∀ n, (satAll v ((List.range c.n_colors).flatMap fun i =>
        (List.range' (i + 1) (c.n_colors - (i + 1))).map fun j =>
          [-(c.color_node n i : Int), -(c.color_node n j : Int)]) = true
      ↔ ∀ i j, i < j → j < c.n_colors →
          v (c.color_node n i) = false ∨ v (c.color_node n j) = false) := by
    intro n
    rw [satAll_flatMap_range]
    constructor
    · intro h i j hij hj
      have hi : i < c.n_colors := by omega
      have h2 := (satAll_map_range' v _ _).mp (h i hi) j (by omega) (by omega)
      rw [satClause_pair] at h2
      rcases h2 with h2 | h2
      · exact Or.inl ((satLit_neg_iff v (color_node_pos c n i)).mp h2)
      · exact Or.inr ((satLit_neg_iff v (color_node_pos c n j)).mp h2)
    · intro h i hi
      rw [satAll_map_range']
      intro j hj1 hj2
      rw [satClause_pair]
      rcases h i j (by omega) (by omega) with h2 | h2
      · exact Or.inl ((satLit_neg_iff v (color_node_pos c n i)).mpr h2)
      · exact Or.inr ((satLit_neg_iff v (color_node_pos c n j)).mpr h2)
  rw [onehot_color_clauses, satAll_append, Bool.and_eq_true,
    satAll_map_range, satAll_flatMap_range]
  constructor
  · rintro ⟨h1, h2⟩
    exact ⟨fun n hn => (hA n).mp (h1 n hn), fun n hn => (hB n).mp (h2 n hn)⟩
  · rintro ⟨h1, h2⟩
    exact ⟨fun n hn => (hA n).mpr (h1 n hn), fun n hn => (hB n).mpr (h2 n hn)⟩

lemma satAll_onehot_parent_iff (c : Codec) (v : Nat → Bool) :
    satAll v (onehot_parent_relation_clauses c) = true ↔
      (∀ t, t < c.n_tokens → ∀ i, i < c.n_colors →
        ∃ j, j < c.n_colors ∧ v (c.parent_relation t i j) = true)
      ∧ (∀ t, t < c.n_tokens → ∀ i, i < c.n_colors → ∀ h j, h < j → j < c.n_colors →
          v (c.parent_relation t i h) = false ∨ v (c.parent_relation t i j) = false) := by
  rw [onehot_parent_relation_clauses, satAll_append, Bool.and_eq_true,
    satAll_map_list, satAll_flatMap_list]
  constructor
  · rintro ⟨h1, h2⟩
    constructor
    · intro t ht i hi
      have hc := h1 (t, i) ((mem_tokensXcolors c (t, i)).mpr ⟨ht, hi⟩)
      rw [satClause_map_range] at hc
      obtain ⟨j, hj, hsat⟩ := hc
      rw [satLit_pos v (parent_relation_pos c t i j)] at hsat
      exact ⟨j, hj, hsat⟩
    · intro t ht i hi h j hhj hjk
      have hall := h2 (t, i) ((mem_tokensXcolors c (t, i)).mpr ⟨ht, hi⟩)
      rw [satAll_flatMap_range] at hall
      have h2' := (satAll_map_range' v _ _).mp (hall h (by omega)) j (by omega) (by omega)
      rw [satClause_pair] at h2'
      rcases h2' with h2' | h2'
      · exact Or.inl ((satLit_neg_iff v (parent_relation_pos c t i h)).mp h2')
      · exact Or.inr ((satLit_neg_iff v (parent_relation_pos c t i j)).mp h2')
  · rintro ⟨h1, h2⟩
    constructor
    · intro ti hti
      rw [mem_tokensXcolors] at hti
      rw [satClause_map_range]
      obtain ⟨j, hj, hsat⟩ := h1 ti.1 hti.1 ti.2 hti.2
      exact ⟨j, hj, by rw [satLit_pos v (parent_relation_pos c ti.1 ti.2 j)]; exact hsat⟩
    · intro ti hti
      rw [mem_tokensXcolors] at hti
      rw [satAll_flatMap_range]
      intro h hh
      rw [satAll_map_range']
      intro j hj1 hj2
      rw [satClause_pair]
      rcases h2 ti.1 hti.1 ti.2 hti.2 h j (by omega) (by omega) with h2' | h2'
      · exact Or.inl ((satLit_neg_iff v (parent_relation_pos c ti.1 ti.2 h)).mpr h2')
      · exact Or.inr ((satLit_neg_iff v (parent_relation_pos c ti.1 ti.2 j)).mpr h2')

lemma satAll_partition_iff (c : Codec) (apta : APTA) (v : Nat → Bool) :
    satAll v (partition_by_accepting_clauses c apta) = true ↔
      ∀ col, col < c.n_colors →
        (∀ n ∈ apta.accepting,
          v (c.color_node n col) = false ∨ v (c.color_accepting col) = true)
        ∧ (∀ n ∈ apta.rejecting,
          v (c.color_node n col) = false ∨ v (c.color_accepting col) = false) := by
  rw [partition_by_accepting_clauses, satAll_flatMap_range]
  constructor
  · intro h col hcol
    have h2 := h col hcol
    rw [satAll_append, Bool.and_eq_true, satAll_map_list, satAll_map_list] at h2
    constructor
    · intro n hn
      have h3 := h2.1 n hn
      rw [satClause_pair] at h3
      rcases h3 with h3 | h3
      · exact Or.inl ((satLit_neg_iff v (color_node_pos c n col)).mp h3)
      · rw [satLit_pos v (color_accepting_pos c col)] at h3
        exact Or.inr h3
    · intro n hn
      have h3 := h2.2 n hn
      rw [satClause_pair] at h3
      rcases h3 with h3 | h3
      · exact Or.inl ((satLit_neg_iff v (color_node_pos c n col)).mp h3)
      · exact Or.inr ((satLit_neg_iff v (color_accepting_pos c col)).mp h3)
  · intro h col hcol
    rw [satAll_append, Bool.and_eq_true, satAll_map_list, satAll_map_list]
    constructor
    · intro n hn
      rw [satClause_pair]
      rcases (h col hcol).1 n hn with h3 | h3
      · exact Or.inl ((satLit_neg_iff v (color_node_pos c n col)).mpr h3)
      · exact Or.inr (by rw [satLit_pos v (color_accepting_pos c col)]; exact h3)
    · intro n hn
      rw [satClause_pair]
      rcases (h col hcol).2 n hn with h3 | h3
      · exact Or.inl ((satLit_neg_iff v (color_node_pos c n col)).mpr h3)
      · exact Or.inr ((satLit_neg_iff v (color_accepting_pos c col)).mpr h3)

lemma satAll_coupling_iff (c : Codec) (apta : APTA) (v : Nat → Bool) :
    satAll v (colors_parent_rel_coupling_clauses c apta) = true ↔
      ∀ node, 1 ≤ node → node < 1 + (apta.n_nodes - 1) →
        ∀ i, i < c.n_colors → ∀ j, j < c.n_colors →
        (v (c.color_node (apta.parent node) i) = false
          ∨ v (c.color_node node j) = false
          ∨ v (c.parent_relation (apta.source node) i j) = true)
        ∧ (v (c.color_node (apta.parent node) i) = false
          ∨ v (c.color_node node j) = true
          ∨ v (c.parent_relation (apta.source node) i j) = false) := by
  rw [colors_parent_rel_coupling_clauses, satAll_flatMap_range']
  constructor
  · intro h node h1 h2 i hi j hj
    have h3 := h node h1 h2
    rw [satAll_flatMap_range] at h3
    have h4 := h3 i hi
    rw [satAll_flatMap_range] at h4
    have h5 := h4 j hj
    rw [satAll_pair_list] at h5
    obtain ⟨ha, hb⟩ := h5
    rw [satClause_triple] at ha hb
    constructor
    · rcases ha with ha | ha | ha
      · exact Or.inl ((satLit_neg_iff v (color_node_pos c _ i)).mp ha)
      · exact Or.inr (Or.inl ((satLit_neg_iff v (color_node_pos c node j)).mp ha))
      · rw [satLit_pos v (parent_relation_pos c _ i j)] at ha
        exact Or.inr (Or.inr ha)
    · rcases hb with hb | hb | hb
      · exact Or.inl ((satLit_neg_iff v (color_node_pos c _ i)).mp hb)
      · rw [satLit_pos v (color_node_pos c node j)] at hb
        exact Or.inr (Or.inl hb)
      · exact Or.inr (Or.inr ((satLit_neg_iff v (parent_relation_pos c _ i j)).mp hb))
  · intro h node h1 h2
    rw [satAll_flatMap_range]
    intro i hi
    rw [satAll_flatMap_range]
    intro j hj
    rw [satAll_pair_list]
    obtain ⟨ha, hb⟩ := h node h1 h2 i hi j hj
    constructor
    · rw [satClause_triple]
      rcases ha with ha | ha | ha
      · exact Or.inl ((satLit_neg_iff v (color_node_pos c _ i)).mpr ha)
      · exact Or.inr (Or.inl ((satLit_neg_iff v (color_node_pos c node j)).mpr ha))
      · exact Or.inr (Or.inr (by
          rw [satLit_pos v (parent_relation_pos c _ i j)]; exact ha))
    · rw [satClause_triple]
      rcases hb with hb | hb | hb
      · exact Or.inl ((satLit_neg_iff v (color_node_pos c _ i)).mpr hb)
      · exact Or.inr (Or.inl (by rw [satLit_pos v (color_node_pos c node j)]; exact hb))
      · exact Or.inr (Or.inr ((satLit_neg_iff v (parent_relation_pos c _ i j)).mpr hb))

lemma satAll_determination_iff (c : Codec) (edges : List (Nat × Nat)) (v : Nat → Bool) :
    satAll v (determination_conflicts c edges) = true ↔
      ∀ e ∈ edges, ∀ col, col < c.n_colors →
        v (c.color_node e.1 col) = false ∨ v (c.color_node e.2 col) = false := by
  rw [determination_conflicts, satAll_flatMap_list]
  constructor
  · intro h e he col hcol
    have h2 := (satAll_map_range v _).mp (h e he) col hcol
    rw [satClause_pair] at h2
    rcases h2 with h2 | h2
    · exact Or.inl ((satLit_neg_iff v (color_node_pos c e.1 col)).mp h2)
    · exact Or.inr ((satLit_neg_iff v (color_node_pos c e.2 col)).mp h2)
  · intro h e he
    rw [satAll_map_range]
    intro col hcol
    rw [satClause_pair]
    rcases h e he col hcol with h2 | h2
    · exact Or.inl ((satLit_neg_iff v (color_node_pos c e.1 col)).mpr h2)
    · exact Or.inr ((satLit_neg_iff v (color_node_pos c e.2 col)).mpr h2)

lemma satAll_units_iff (c : Codec) (q : List Nat) (v : Nat → Bool) :
    satAll v (symmetry_breaking c q) = true ↔
      ∀ i, i < q.length → v (c.color_node (q.getD i 0) i) = true := by
  rw [symmetry_breaking, satAll, List.all_eq_true]
  constructor
  · intro h i hi
    have hlen' : i < q.enum.length := by rw [List.enum_length]; exact hi
    have he : q.enum[i] = (i, q[i]) := List.getElem_enum q i hlen'
    have hmem2 : ((i, q[i]) : Nat × Nat) ∈ q.enum := he ▸ List.getElem_mem hlen'
    have h2 := h _ (List.mem_map.mpr ⟨(i, q[i]), hmem2, rfl⟩)
    rw [satClause_singleton, satLit_pos v (color_node_pos c _ i)] at h2
    rw [List.getD_eq_getElem _ _ hi]
    exact h2
  · intro h cl hcl
    obtain ⟨p, hp, rfl⟩ := List.mem_map.mp hcl
    obtain ⟨i, x⟩ := p
    obtain ⟨hlen2, hget⟩ := List.mem_enum hp
    rw [satClause_singleton, satLit_pos v (color_node_pos c x i)]
    have h2 := h i hlen2
    rw [List.getD_eq_getElem _ _ hlen2] at h2
    rw [hget]
    exact h2


lemma filter_card_one {k : Nat} {p : Nat → Bool} (col : Nat) (hcol : col < k)
    (hp : p col = true)
    (huniq : ∀ i j, i < j → j < k → p i = false ∨ p j = false) :
    ((Finset.range k).filter fun i => p i = true).card = 1 := by
  rw [Finset.card_eq_one]
  refine ⟨col, ?_⟩
  rw [Finset.eq_singleton_iff_unique_mem]
  constructor
  · rw [Finset.mem_filter, Finset.mem_range]
    exact ⟨hcol, hp⟩
  · intro x hx
    rw [Finset.mem_filter, Finset.mem_range] at hx
    by_contra hne
    rcases Nat.lt_or_ge x col with h | h
    · rcases huniq x col h hcol with h2 | h2
      · rw [hx.2] at h2; exact Bool.noConfusion h2
      · rw [hp] at h2; exact Bool.noConfusion h2
    · have hlt : col < x := by omega
      rcases huniq col x hlt hx.1 with h2 | h2
      · rw [hp] at h2; exact Bool.noConfusion h2
      · rw [hx.2] at h2; exact Bool.noConfusion h2

/-- C5: for every APTA, consistency graph, Codec and clique, every Boolean
assignment satisfying all clauses produced by `encode_dfa_id` makes, for every
node, exactly one of the `ColorNode(node, ·)` literals true, and, for every
`(token, color1)` pair, exactly one of the `ParentRelation(token, color1, ·)`
literals true. -/
theorem C5_onehot_semantics (apta : APTA) (c : Codec) (edges : List (Nat × Nat))
    (clique : List Nat) (v : Nat → Bool)
    (hsat : satAll v (encode_dfa_id apta c edges clique) = true) :
    (∀ n, n < c.n_nodes →
      ((Finset.range c.n_colors).filter
        fun col => v (c.color_node n col) = true).card = 1)
    ∧ (∀ t, t < c.n_tokens → ∀ i, i < c.n_colors →
      ((Finset.range c.n_colors).filter
        fun j => v (c.parent_relation t i j) = true).card = 1) := by
  rw [encode_dfa_id] at hsat
  simp only [satAll_append, Bool.and_eq_true] at hsat
  obtain ⟨⟨⟨⟨⟨hA, hB⟩, hC⟩, hD⟩, hE⟩, hM⟩ := hsat
  rw [satAll_onehot_color_iff] at hA
  rw [satAll_onehot_parent_iff] at hD
  constructor
  · intro n hn
    obtain ⟨col, hcol, hvc⟩ := hA.1 n hn
    exact filter_card_one col hcol hvc (fun i j hij hj => hA.2 n hn i j hij hj)
  · intro t ht i hi
    obtain ⟨j, hj, hvc⟩ := hD.1 t ht i hi
    exact filter_card_one j hj hvc (fun a b hab hb => hD.2 t ht i hi a b hab hb)

/-- Witness for C5 at the one-node instance and the all-true assignment. -/
theorem C5_onehot_semantics_witness :
    (∀ n, n < codecU.n_nodes →
      ((Finset.range codecU.n_colors).filter
        fun col => vTrue (codecU.color_node n col) = true).card = 1)
    ∧ (∀ t, t < codecU.n_tokens → ∀ i, i < codecU.n_colors →
      ((Finset.range codecU.n_colors).filter
        fun j => vTrue (codecU.parent_relation t i j) = true).card = 1) :=
  C5_onehot_semantics aptaU codecU [] [] vTrue (by decide)

/-- C6: for the §8 scenario (3-node APTA, 2 tokens, `n_colors = 2`) the Codec
variable counts are 2 for `ColorAccepting`, 6 for `ColorNode` and 8 for
`ParentRelation`; the clause set is satisfiable; and in every satisfying
assignment nodes 1 and 2 receive different colors, node 1's color is
accepting and node 2's color is rejecting. -/
theorem C6_end_to_end_scenario :
    codec6.counts.take 3 = [2, 6, 8]
    ∧ satAll v6 L6 = true
    ∧ (∀ v, satAll v L6 = true →
        (∀ c1 c2, c1 < 2 → c2 < 2 → v (codec6.color_node 1 c1) = true →
          v (codec6.color_node 2 c2) = true → c1 ≠ c2)
        ∧ (∀ col, col < 2 → v (codec6.color_node 1 col) = true →
            v (codec6.color_accepting col) = true)
        ∧ (∀ col, col < 2 → v (codec6.color_node 2 col) = true →
            v (codec6.color_accepting col) = false)) := by
  refine ⟨by decide, by decide, ?_⟩
  intro v hv
  rw [L6, encode_dfa_id] at hv
  simp only [satAll_append, Bool.and_eq_true] at hv
  obtain ⟨⟨⟨⟨⟨hA, hB⟩, hC⟩, hD⟩, hE⟩, hM⟩ := hv
  rw [satAll_partition_iff] at hB
  rw [satAll_determination_iff] at hE
  refine ⟨?_, ?_, ?_⟩
  · intro c1 c2 h1 h2 hv1 hv2 heq
    subst heq
    have hd := hE (1, 2) (by decide) c1 h1
    have hd1 : v (codec6.color_node 1 c1) = false
        ∨ v (codec6.color_node 2 c1) = false := hd
    rcases hd1 with h | h
    · rw [hv1] at h; exact Bool.noConfusion h
    · rw [hv2] at h; exact Bool.noConfusion h
  · intro col hcol hv1
    have hp := (hB col hcol).1 1 (by decide)
    rcases hp with h | h
    · rw [hv1] at h; exact Bool.noConfusion h
    · exact h
  · intro col hcol hv1
    have hp := (hB col hcol).2 2 (by decide)
    rcases hp with h | h
    · rw [hv1] at h; exact Bool.noConfusion h
    · exact h


lemma clause4_mem_common (c : Codec) {j : Nat} (hj0 : 0 < j) (hjk : j < c.n_colors) :
    ((List.range j).map fun i => (c.enumeration_parent i j : Int))
      ∈ symmetry_breaking_common c := by
  rw [symmetry_breaking_common]
  refine List.mem_append_right _ ?_
  rw [List.mem_flatMap]
  refine ⟨j, List.mem_range.mpr hjk, ?_⟩
  refine List.mem_append_left _ ?_
  rw [if_pos hj0]
  exact List.mem_singleton.mpr rfl

lemma clause3_mem_common (c : Codec) {i j : Nat} (hij : i < j) (hjk : j < c.n_colors) :
    [(c.transition_relation i j : Int), -(c.enumeration_parent i j : Int)]
      ∈ symmetry_breaking_common c := by
  rw [symmetry_breaking_common]
  refine List.mem_append_right _ ?_
  rw [List.mem_flatMap]
  refine ⟨j, List.mem_range.mpr hjk, ?_⟩
  refine List.mem_append_right _ ?_
  rw [List.mem_flatMap]
  refine ⟨i, List.mem_range.mpr hij, ?_⟩
  exact List.mem_cons.mpr (Or.inr (List.mem_cons.mpr (Or.inl rfl)))

lemma clause12_mem_bfs (c : Codec) {c3 c1 j : Nat} (h31 : c3 < c1) (h1j : c1 < j)
    (hjk : j < c.n_colors) :
    [-(c.enumeration_parent c1 j : Int), -(c.transition_relation c3 j : Int)]
      ∈ symmetry_breaking_bfs c := by
  rw [symmetry_breaking_bfs]
  rw [List.mem_flatMap]
  refine ⟨j, List.mem_range.mpr hjk, ?_⟩
  rw [List.mem_flatMap]
  refine ⟨c1, List.mem_range.mpr h1j, ?_⟩
  refine List.mem_append_left _ (List.mem_append_left _ ?_)
  exact List.mem_map.mpr ⟨c3, List.mem_range.mpr h31, rfl⟩

/-- C7: in BFS symmetry-breaking mode, every assignment satisfying all clauses
of `encode_dfa_id` makes, for every color `j` with `0 < j < n_colors`, exactly
one `EnumerationParent(i, j)` literal with `i < j` true. -/
theorem C7_bfs_enumeration_parent_onehot (apta : APTA) (c : Codec)
    (edges : List (Nat × Nat)) (clique : List Nat) (v : Nat → Bool)
    (hmode : c.symm_mode = some .bfs)
    (hsat : satAll v (encode_dfa_id apta c edges clique) = true)
    (j : Nat) (hj0 : 0 < j) (hjk : j < c.n_colors) :
    ((Finset.range j).filter
      fun i => v (c.enumeration_parent i j) = true).card = 1 := by
  have hsat2 : satAll v (onehot_color_clauses c
      ++ partition_by_accepting_clauses c apta
      ++ colors_parent_rel_coupling_clauses c apta
      ++ onehot_parent_relation_clauses c
      ++ determination_conflicts c edges
      ++ (symmetry_breaking_common c ++ symmetry_breaking_bfs c)) = true := by
    rw [encode_dfa_id, hmode] at hsat
    exact hsat
  simp only [satAll_append, Bool.and_eq_true] at hsat2
  obtain ⟨⟨⟨⟨⟨hA, hB⟩, hC⟩, hD⟩, hE⟩, hcommon, hbfs⟩ := hsat2
  have hal := satAll_mem v hcommon (clause4_mem_common c hj0 hjk)
  rw [satClause_map_range] at hal
  obtain ⟨i0, hi0, hv0⟩ := hal
  rw [satLit_pos v (enumeration_parent_pos c i0 j)] at hv0
  refine filter_card_one i0 hi0 hv0 ?_
  intro a b hab hbj
  cases hva : v (c.enumeration_parent a j)
  · exact Or.inl rfl
  · right
    cases hvb : v (c.enumeration_parent b j)
    · exact rfl
    · exfalso
      have h3 := satAll_mem v hcommon
        (clause3_mem_common c (show a < j by omega) hjk)
      rw [satClause_pair] at h3
      have hta : v (c.transition_relation a j) = true := by
        rcases h3 with h | h
        · rwa [satLit_pos v (transition_relation_pos c a j)] at h
        · rw [satLit_neg_iff v (enumeration_parent_pos c a j)] at h
          rw [hva] at h
          exact Bool.noConfusion h
      have h12 := satAll_mem v hbfs (clause12_mem_bfs c hab hbj hjk)
      rw [satClause_pair] at h12
      rcases h12 with h | h
      · rw [satLit_neg_iff v (enumeration_parent_pos c b j)] at h
        rw [hvb] at h
        exact Bool.noConfusion h
      · rw [satLit_neg_iff v (transition_relation_pos c a j)] at h
        rw [hta] at h
        exact Bool.noConfusion h

/-- Witness for C7 at the one-node instance, two colors, BFS mode, and a
concrete satisfying assignment. -/
theorem C7_bfs_enumeration_parent_onehot_witness :
    ((Finset.range 1).filter
      fun i => v7 (codec7.enumeration_parent i 1) = true).card = 1 :=
  C7_bfs_enumeration_parent_onehot aptaU codec7 [] [] v7 rfl (by decide)
    1 (by decide) (by decide)


/-- C9: `dfa_id_encodings` yields one `(Codec, clauses)` pair for each color
count `k` from the computed minimum (the clique size in clique mode, else 1)
up to `n_nodes` inclusive, in increasing order, each Codec freshly built with
`n_colors = k` from the same APTA parameters, paired with the clause set
`encode_dfa_id` produces for it. -/
theorem C9_trial_driver (apta : APTA) (symm : Option SymmMode)
    (edges : List (Nat × Nat)) (clique : List Nat) :
    (dfa_id_encodings apta symm edges clique).length
      = apta.n_nodes + 1 - (if symm = some SymmMode.clique then clique.length else 1)
    ∧ ∀ i, (h : i < (dfa_id_encodings apta symm edges clique).length) →
        (dfa_id_encodings apta symm edges clique)[i]
          = (⟨apta.n_nodes,
              (if symm = some SymmMode.clique then clique.length else 1) + i,
              apta.n_tokens, symm⟩,
             encode_dfa_id apta
               ⟨apta.n_nodes,
                (if symm = some SymmMode.clique then clique.length else 1) + i,
                apta.n_tokens, symm⟩ edges clique) := by
  have hmm : (match symm with
      | some SymmMode.clique => clique.length
      | _ => 1) = (if symm = some SymmMode.clique then clique.length else 1) := by
    rcases symm with _ | mode
    · simp
    · cases mode <;> simp
  constructor
  · simp only [dfa_id_encodings, hmm]
    rw [List.length_map, List.length_range']
  · intro i h
    simp only [dfa_id_encodings, hmm] at h ⊢
    rw [List.length_map, List.length_range'] at h
    rw [List.getElem_map, List.getElem_range', Nat.one_mul]

/-- Witness for C9 at the one-node instance without symmetry breaking. -/
theorem C9_trial_driver_witness :
    (dfa_id_encodings aptaU none [] []).length = 1
    ∧ (dfa_id_encodings aptaU none [] []).get ⟨0, by decide⟩
      = (⟨1, 1, 1, none⟩, encode_dfa_id aptaU ⟨1, 1, 1, none⟩ [] []) := by
  have h := C9_trial_driver aptaU none [] []
  refine ⟨h.1.trans (by decide), ?_⟩
  rw [List.get_eq_getElem]
  rw [h.2 0 (by rw [h.1]; decide)]
  decide


lemma counts_take3_sum (c : Codec) :
    (c.counts.take 3).sum
      = c.n_colors + c.n_colors * c.n_nodes + c.n_tokens * c.n_colors * c.n_colors := by
  simp [Codec.counts]; omega

lemma color_accepting_le (c : Codec) {col : Nat} (h : col < c.n_colors) :
    c.color_accepting col ≤ (c.counts.take 3).sum := by
  rw [color_accepting_eq, counts_take3_sum]
  omega

lemma color_node_le (c : Codec) {node col : Nat}
    (hn : node < c.n_nodes) (h : col < c.n_colors) :
    c.color_node node col ≤ (c.counts.take 3).sum := by
  rw [color_node_eq, counts_take3_sum]
  have hmul : c.n_colors * (1 + node) ≤ c.n_colors * c.n_nodes :=
    Nat.mul_le_mul (Nat.le_refl _) (by omega)
  omega

lemma parent_relation_le (c : Codec) {t c1 c2 : Nat}
    (ht : t < c.n_tokens) (h1 : c1 < c.n_colors) (h2 : c2 < c.n_colors) :
    c.parent_relation t c1 c2 ≤ (c.counts.take 3).sum := by
  rw [parent_relation_eq, counts_take3_sum]
  have he : c.n_colors * (1 + c.n_nodes + (c2 + c.n_colors * t))
      = c.n_colors + c.n_colors * c.n_nodes + c.n_colors * c2
        + c.n_colors * c.n_colors * t := by ring
  have h3 : c.n_colors * c2 + c1 + 1 ≤ c.n_colors * c.n_colors := by
    have hstep : c.n_colors * (c2 + 1) ≤ c.n_colors * c.n_colors :=
      Nat.mul_le_mul (Nat.le_refl c.n_colors) h2
    have he2 : c.n_colors * (c2 + 1) = c.n_colors * c2 + c.n_colors := by ring
    omega
  have h4 : c.n_colors * c.n_colors * (t + 1) ≤ c.n_colors * c.n_colors * c.n_tokens :=
    Nat.mul_le_mul (Nat.le_refl _) ht
  have he3 : c.n_colors * c.n_colors * (t + 1)
      = c.n_colors * c.n_colors * t + c.n_colors * c.n_colors := by ring
  have he4 : c.n_tokens * c.n_colors * c.n_colors
      = c.n_colors * c.n_colors * c.n_tokens := by ring
  omega

/-- All literals produced by the base families (and by the clique unit
clauses) have magnitudes inside the three supported kinds, i.e. in
`[1, sum(counts[:3])]`. -/
lemma encode_literal_bound (apta : APTA) (c : Codec) (edges : List (Nat × Nat))
    (clique : List Nat)
    (hmode : c.symm_mode = none ∨ c.symm_mode = some SymmMode.clique)
    (hann : apta.n_nodes ≤ c.n_nodes)
    (hacc : ∀ n ∈ apta.accepting, n < c.n_nodes)
    (hrej : ∀ n ∈ apta.rejecting, n < c.n_nodes)
    (hpar : ∀ node, 1 ≤ node → node < apta.n_nodes → apta.parent node < c.n_nodes)
    (hsrc : ∀ node, 1 ≤ node → node < apta.n_nodes → apta.source node < c.n_tokens)
    (hedge : ∀ e ∈ edges, e.1 < c.n_nodes ∧ e.2 < c.n_nodes)
    (hcl : ∀ x ∈ clique, x < c.n_nodes) (hcllen : clique.length ≤ c.n_colors) :
    ∀ cl ∈ encode_dfa_id apta c edges clique, ∀ l ∈ cl,
      1 ≤ l.natAbs ∧ l.natAbs ≤ (c.counts.take 3).sum := by
  intro cl hclmem l hl
  rw [encode_dfa_id] at hclmem
  rcases List.mem_append.mp hclmem with h5 | hsymm
  rotate_left
  · -- symmetry-breaking component: none gives [], clique gives unit clauses
    rcases hmode with hm | hm
    · rw [hm] at hsymm
      exact absurd hsymm (List.not_mem_nil _)
    · rw [hm] at hsymm
      rw [symmetry_breaking] at hsymm
      obtain ⟨p, hp, rfl⟩ := List.mem_map.mp hsymm
      obtain ⟨i, x⟩ := p
      obtain ⟨hlen2, hget⟩ := List.mem_enum hp
      rcases List.mem_cons.mp hl with rfl | hl2
      · rw [Int.natAbs_ofNat]
        refine ⟨color_node_pos c x i, color_node_le c ?_ (by omega)⟩
        rw [hget]
        exact hcl _ (List.getElem_mem hlen2)
      · exact absurd hl2 (List.not_mem_nil _)
  rcases List.mem_append.mp h5 with h4 | hE
  rotate_left
  · -- determination conflicts
    rw [determination_conflicts] at hE
    obtain ⟨e, he, h2⟩ := List.mem_flatMap.mp hE
    obtain ⟨col, hcol, rfl⟩ := List.mem_map.mp h2
    rw [List.mem_range] at hcol
    rcases List.mem_cons.mp hl with rfl | hl2
    · rw [Int.natAbs_neg, Int.natAbs_ofNat]
      exact ⟨color_node_pos c _ _, color_node_le c (hedge e he).1 hcol⟩
    · rcases List.mem_cons.mp hl2 with rfl | hl3
      · rw [Int.natAbs_neg, Int.natAbs_ofNat]
        exact ⟨color_node_pos c _ _, color_node_le c (hedge e he).2 hcol⟩
      · exact absurd hl3 (List.not_mem_nil _)
  rcases List.mem_append.mp h4 with h3 | hD
  rotate_left
  · -- onehot parent relation
    rw [onehot_parent_relation_clauses] at hD
    rcases List.mem_append.mp hD with h | h
    · obtain ⟨ti, hti, rfl⟩ := List.mem_map.mp h
      rw [mem_tokensXcolors] at hti
      obtain ⟨j, hj, rfl⟩ := List.mem_map.mp hl
      rw [List.mem_range] at hj
      rw [Int.natAbs_ofNat]
      exact ⟨parent_relation_pos c _ _ _, parent_relation_le c hti.1 hti.2 hj⟩
    · obtain ⟨ti, hti, h2⟩ := List.mem_flatMap.mp h
      rw [mem_tokensXcolors] at hti
      obtain ⟨i, hi, h3⟩ := List.mem_flatMap.mp h2
      rw [List.mem_range] at hi
      obtain ⟨j, hj, rfl⟩ := List.mem_map.mp h3
      rw [List.mem_range'] at hj
      obtain ⟨d, hd, rfl⟩ := hj
      rcases List.mem_cons.mp hl with rfl | hl2
      · rw [Int.natAbs_neg, Int.natAbs_ofNat]
        exact ⟨parent_relation_pos c _ _ _, parent_relation_le c hti.1 hti.2 hi⟩
      · rcases List.mem_cons.mp hl2 with rfl | hl3
        · rw [Int.natAbs_neg, Int.natAbs_ofNat]
          exact ⟨parent_relation_pos c _ _ _,
            parent_relation_le c hti.1 hti.2 (by omega)⟩
        · exact absurd hl3 (List.not_mem_nil _)
  rcases List.mem_append.mp h3 with h2 | hC
  rotate_left
  · -- coupling clauses
    rw [colors_parent_rel_coupling_clauses] at hC
    obtain ⟨node, hnode, hc2⟩ := List.mem_flatMap.mp hC
    rw [List.mem_range'] at hnode
    obtain ⟨d, hd, rfl⟩ := hnode
    have hnode1 : 1 ≤ 1 + 1 * d := by omega
    have hnode2 : 1 + 1 * d < apta.n_nodes := by omega
    obtain ⟨i, hi, hc3⟩ := List.mem_flatMap.mp hc2
    rw [List.mem_range] at hi
    obtain ⟨j, hj, hc4⟩ := List.mem_flatMap.mp hc3
    rw [List.mem_range] at hj
    have hpn : apta.parent (1 + 1 * d) < c.n_nodes := hpar _ hnode1 hnode2
    have hsn : apta.source (1 + 1 * d) < c.n_tokens := hsrc _ hnode1 hnode2
    have hnn : 1 + 1 * d < c.n_nodes := by omega
    rcases List.mem_cons.mp hc4 with rfl | hc5
    · rcases List.mem_cons.mp hl with rfl | hl2
      · rw [Int.natAbs_neg, Int.natAbs_ofNat]
        exact ⟨color_node_pos c _ _, color_node_le c hpn hi⟩
      · rcases List.mem_cons.mp hl2 with rfl | hl3
        · rw [Int.natAbs_neg, Int.natAbs_ofNat]
          exact ⟨color_node_pos c _ _, color_node_le c hnn hj⟩
        · rcases List.mem_cons.mp hl3 with rfl | hl4
          · rw [Int.natAbs_ofNat]
            exact ⟨parent_relation_pos c _ _ _, parent_relation_le c hsn hi hj⟩
          · exact absurd hl4 (List.not_mem_nil _)
    · rcases List.mem_cons.mp hc5 with rfl | hc6
      · rcases List.mem_cons.mp hl with rfl | hl2
        · rw [Int.natAbs_neg, Int.natAbs_ofNat]
          exact ⟨color_node_pos c _ _, color_node_le c hpn hi⟩
        · rcases List.mem_cons.mp hl2 with rfl | hl3
          · rw [Int.natAbs_ofNat]
            exact ⟨color_node_pos c _ _, color_node_le c hnn hj⟩
          · rcases List.mem_cons.mp hl3 with rfl | hl4
            · rw [Int.natAbs_neg, Int.natAbs_ofNat]
              exact ⟨parent_relation_pos c _ _ _, parent_relation_le c hsn hi hj⟩
            · exact absurd hl4 (List.not_mem_nil _)
      · exact absurd hc6 (List.not_mem_nil _)
  rcases List.mem_append.mp h2 with hA | hB
  rotate_left
  · -- accepting partition clauses
    rw [partition_by_accepting_clauses] at hB
    obtain ⟨col, hcol, h2⟩ := List.mem_flatMap.mp hB
    rw [List.mem_range] at hcol
    rcases List.mem_append.mp h2 with h | h
    · obtain ⟨n, hn, rfl⟩ := List.mem_map.mp h
      rcases List.mem_cons.mp hl with rfl | hl2
      · rw [Int.natAbs_neg, Int.natAbs_ofNat]
        exact ⟨color_node_pos c _ _, color_node_le c (hacc n hn) hcol⟩
      · rcases List.mem_cons.mp hl2 with rfl | hl3
        · rw [Int.natAbs_ofNat]
          exact ⟨color_accepting_pos c _, color_accepting_le c hcol⟩
        · exact absurd hl3 (List.not_mem_nil _)
    · obtain ⟨n, hn, rfl⟩ := List.mem_map.mp h
      rcases List.mem_cons.mp hl with rfl | hl2
      · rw [Int.natAbs_neg, Int.natAbs_ofNat]
        exact ⟨color_node_pos c _ _, color_node_le c (hrej n hn) hcol⟩
      · rcases List.mem_cons.mp hl2 with rfl | hl3
        · rw [Int.natAbs_neg, Int.natAbs_ofNat]
          exact ⟨color_accepting_pos c _, color_accepting_le c hcol⟩
        · exact absurd hl3 (List.not_mem_nil _)
  · -- onehot color clauses
    rw [onehot_color_clauses] at hA
    rcases List.mem_append.mp hA with h | h
    · obtain ⟨n, hn, rfl⟩ := List.mem_map.mp h
      rw [List.mem_range] at hn
      obtain ⟨col, hcol, rfl⟩ := List.mem_map.mp hl
      rw [List.mem_range] at hcol
      rw [Int.natAbs_ofNat]
      exact ⟨color_node_pos c n col, color_node_le c hn hcol⟩
    · obtain ⟨n, hn, h2⟩ := List.mem_flatMap.mp h
      rw [List.mem_range] at hn
      obtain ⟨i, hi, h3⟩ := List.mem_flatMap.mp h2
      rw [List.mem_range] at hi
      obtain ⟨j, hj, rfl⟩ := List.mem_map.mp h3
      rw [List.mem_range'] at hj
      obtain ⟨d, hd, rfl⟩ := hj
      rcases List.mem_cons.mp hl with rfl | hl2
      · rw [Int.natAbs_neg, Int.natAbs_ofNat]
        exact ⟨color_node_pos c _ _, color_node_le c hn hi⟩
      · rcases List.mem_cons.mp hl2 with rfl | hl3
        · rw [Int.natAbs_neg, Int.natAbs_ofNat]
          exact ⟨color_node_pos c _ _, color_node_le c hn (by omega)⟩
        · exact absurd hl3 (List.not_mem_nil _)

/-- C10: the auxiliary kind 3-5 variable counts are included in the total
regardless of `symm_mode`; when `symm_mode` is `none` or `"clique"` no clause
of `encode_dfa_id` contains a literal with magnitude in those ranges, so the
total variable count strictly exceeds the number of variables occurring in
the clauses whenever `n_colors ≥ 2` or `n_colors * n_tokens ≥ 1`. -/
theorem C10_aux_variables_counted_but_unused (apta : APTA) (c : Codec)
    (edges : List (Nat × Nat)) (clique : List Nat)
    (hmode : c.symm_mode = none ∨ c.symm_mode = some SymmMode.clique)
    (hann : apta.n_nodes ≤ c.n_nodes)
    (hacc : ∀ n ∈ apta.accepting, n < c.n_nodes)
    (hrej : ∀ n ∈ apta.rejecting, n < c.n_nodes)
    (hpar : ∀ node, 1 ≤ node → node < apta.n_nodes → apta.parent node < c.n_nodes)
    (hsrc : ∀ node, 1 ≤ node → node < apta.n_nodes → apta.source node < c.n_tokens)
    (hedge : ∀ e ∈ edges, e.1 < c.n_nodes ∧ e.2 < c.n_nodes)
    (hcl : ∀ x ∈ clique, x < c.n_nodes) (hcllen : clique.length ≤ c.n_colors) :
    (∀ mode : Option SymmMode,
      (Codec.mk c.n_nodes c.n_colors c.n_tokens mode).counts = c.counts)
    ∧ (∀ cl ∈ encode_dfa_id apta c edges clique, ∀ l ∈ cl,
        1 ≤ l.natAbs ∧ l.natAbs ≤ (c.counts.take 3).sum)
    ∧ (2 ≤ c.n_colors ∨ 1 ≤ c.n_colors * c.n_tokens →
        ((encode_dfa_id apta c edges clique).flatMap
          (fun cl => cl.map Int.natAbs)).toFinset.card < c.counts.sum) := by
  have hbound := encode_literal_bound apta c edges clique hmode hann hacc hrej
    hpar hsrc hedge hcl hcllen
  refine ⟨fun mode => rfl, hbound, ?_⟩
  intro hnz
  have hsub : ((encode_dfa_id apta c edges clique).flatMap
      (fun cl => cl.map Int.natAbs)).toFinset ⊆ Finset.Icc 1 (c.counts.take 3).sum := by
    intro x hx
    rw [List.mem_toFinset, List.mem_flatMap] at hx
    obtain ⟨cl, hclmem, hx2⟩ := hx
    obtain ⟨l, hlmem, rfl⟩ := List.mem_map.mp hx2
    rw [Finset.mem_Icc]
    exact hbound cl hclmem l hlmem
  have hcard := Finset.card_le_card hsub
  rw [Nat.card_Icc] at hcard
  have hsum : c.counts.sum = (c.counts.take 3).sum
      + (c.n_colors * (c.n_colors - 1) / 2 + c.n_colors * (c.n_colors - 1) / 2
         + c.n_colors * c.n_tokens) := by
    rw [counts_take3_sum]
    simp [Codec.counts]
    omega
  have haux : 0 < c.n_colors * (c.n_colors - 1) / 2 + c.n_colors * (c.n_colors - 1) / 2
      + c.n_colors * c.n_tokens := by
    rcases hnz with h | h
    · have h2 : 2 * 1 ≤ c.n_colors * (c.n_colors - 1) :=
        Nat.mul_le_mul h (by omega)
      omega
    · omega
  omega


/-- Witness for C10 at the §8 scenario with `symm_mode = none`: the variables
occurring in clauses number fewer than the total variable count. -/
theorem C10_aux_variables_counted_but_unused_witness :
    ((encode_dfa_id apta6 codec6 cgraph6 []).flatMap
      (fun cl => cl.map Int.natAbs)).toFinset.card < codec6.counts.sum :=
  (C10_aux_variables_counted_but_unused apta6 codec6 cgraph6 []
    (Or.inl rfl) (by decide) (by decide) (by decide)
    (by intro node h1 h2; simp [apta6]; decide)
    (by intro node h1 h2; by_cases h : node = 1 <;> simp [apta6, h] <;> decide)
    (by decide) (by decide) (by decide)).2.2 (Or.inl (by decide))


lemma swapFun_lt {a b k : Nat} (ha : a < k) (hb : b < k) (x : Nat) (hx : x < k) :
    swapFun a b x < k := by
  simp only [swapFun]
  split
  · exact hb
  · split
    · exact ha
    · exact hx

lemma swapFun_involutive (a b : Nat) : ∀ x, swapFun a b (swapFun a b x) = x := by
  intro x
  simp only [swapFun]
  split_ifs <;> omega

lemma permAssign_color_accepting (c : Codec) (f : Nat → Nat) (v : Nat → Bool)
    {col : Nat} (h : col < c.n_colors) :
    permAssign c f v (c.color_accepting col) = v (c.color_accepting (f col)) := by
  have hval := color_accepting_eq c col
  simp only [permAssign]
  rw [if_pos (by omega)]
  have harg : c.color_accepting col - 1 = col := by omega
  rw [harg]

lemma permAssign_color_node (c : Codec) (f : Nat → Nat) (v : Nat → Bool)
    {node col : Nat} (hn : node < c.n_nodes) (h : col < c.n_colors) :
    permAssign c f v (c.color_node node col) = v (c.color_node node (f col)) := by
  have hk : 0 < c.n_colors := by omega
  have hval := color_node_eq c node col
  have hexp : c.n_colors * (1 + node) = c.n_colors + c.n_colors * node := by ring
  have hmul : c.n_colors * (node + 1) ≤ c.n_colors * c.n_nodes :=
    Nat.mul_le_mul (Nat.le_refl _) (by omega)
  have hexp2 : c.n_colors * (node + 1) = c.n_colors * node + c.n_colors := by ring
  simp only [permAssign]
  rw [if_neg (by omega), if_pos (by omega)]
  have harg : c.color_node node col - 1 - c.n_colors = c.n_colors * node + col := by
    omega
  rw [harg, Nat.mul_add_div hk, Nat.mul_add_mod, Nat.mod_eq_of_lt h,
    Nat.div_eq_of_lt h, Nat.add_zero]

lemma permAssign_parent_relation (c : Codec) (f : Nat → Nat) (v : Nat → Bool)
    {t c1 c2 : Nat} (ht : t < c.n_tokens) (h1 : c1 < c.n_colors)
    (h2 : c2 < c.n_colors) :
    permAssign c f v (c.parent_relation t c1 c2)
      = v (c.parent_relation t (f c1) (f c2)) := by
  have hk : 0 < c.n_colors := by omega
  have hval := parent_relation_eq c t c1 c2
  have hexp : c.n_colors * (1 + c.n_nodes + (c2 + c.n_colors * t))
      = c.n_colors + c.n_colors * c.n_nodes
        + (c.n_colors * c2 + c.n_colors * (c.n_colors * t)) := by ring
  have hb1 : c.n_colors * (c2 + 1) ≤ c.n_colors * c.n_colors :=
    Nat.mul_le_mul (Nat.le_refl _) h2
  have hb1e : c.n_colors * (c2 + 1) = c.n_colors * c2 + c.n_colors := by ring
  have hb2 : c.n_colors * (c.n_colors * (t + 1))
      ≤ c.n_colors * (c.n_colors * c.n_tokens) :=
    Nat.mul_le_mul (Nat.le_refl _) (Nat.mul_le_mul (Nat.le_refl _) ht)
  have hb2e : c.n_colors * (c.n_colors * (t + 1))
      = c.n_colors * (c.n_colors * t) + c.n_colors * c.n_colors := by ring
  have hb3 : c.n_tokens * c.n_colors * c.n_colors
      = c.n_colors * (c.n_colors * c.n_tokens) := by ring
  simp only [permAssign]
  rw [if_neg (by omega), if_neg (by omega), if_pos (by omega)]
  have harg : c.parent_relation t c1 c2 - 1 - (c.n_colors + c.n_colors * c.n_nodes)
      = c.n_colors * (c2 + c.n_colors * t) + c1 := by
    have he : c.n_colors * (c2 + c.n_colors * t)
        = c.n_colors * c2 + c.n_colors * (c.n_colors * t) := by ring
    omega
  rw [harg]
  have ediv2 : (c.n_colors * (c2 + c.n_colors * t) + c1)
      / (c.n_colors * c.n_colors) = t := by
    have he : c.n_colors * (c2 + c.n_colors * t) + c1
        = c.n_colors * c.n_colors * t + (c.n_colors * c2 + c1) := by ring
    have hlt2 : c.n_colors * c2 + c1 < c.n_colors * c.n_colors := by omega
    rw [he, Nat.mul_add_div (Nat.mul_pos hk hk), Nat.div_eq_of_lt hlt2]
    omega
  have emod : (c.n_colors * (c2 + c.n_colors * t) + c1) % c.n_colors = c1 := by
    rw [Nat.mul_add_mod, Nat.mod_eq_of_lt h1]
  have ediv : (c.n_colors * (c2 + c.n_colors * t) + c1) / c.n_colors
      = c2 + c.n_colors * t := by
    rw [Nat.mul_add_div hk, Nat.div_eq_of_lt h1]
    omega
  have emod2 : (c2 + c.n_colors * t) % c.n_colors = c2 := by
    rw [Nat.add_comm, Nat.mul_add_mod, Nat.mod_eq_of_lt h2]
  rw [ediv2, emod, ediv, emod2]

/-- Satisfaction of the base clause set (no symmetry breaking) is invariant
under reassigning colors along any bijection of `[0, n_colors)`. -/
lemma satAll_encode_permAssign (apta : APTA) (c : Codec) (edges : List (Nat × Nat))
    (clique : List Nat)
    (hmode : c.symm_mode = none)
    (hann : apta.n_nodes ≤ c.n_nodes)
    (hacc : ∀ n ∈ apta.accepting, n < c.n_nodes)
    (hrej : ∀ n ∈ apta.rejecting, n < c.n_nodes)
    (hpar : ∀ node, 1 ≤ node → node < apta.n_nodes → apta.parent node < c.n_nodes)
    (hsrc : ∀ node, 1 ≤ node → node < apta.n_nodes → apta.source node < c.n_tokens)
    (hedge : ∀ e ∈ edges, e.1 < c.n_nodes ∧ e.2 < c.n_nodes)
    (v : Nat → Bool) (f : Nat → Nat)
    (hflt : ∀ x, x < c.n_colors → f x < c.n_colors)
    (hfinj : ∀ x y, x < c.n_colors → y < c.n_colors → f x = f y → x = y)
    (hfsurj : ∀ d, d < c.n_colors → ∃ x, x < c.n_colors ∧ f x = d)
    (h : satAll v (encode_dfa_id apta c edges clique) = true) :
    satAll (permAssign c f v) (encode_dfa_id apta c edges clique) = true := by
  have hsat2 : satAll v (onehot_color_clauses c
      ++ partition_by_accepting_clauses c apta
      ++ colors_parent_rel_coupling_clauses c apta
      ++ onehot_parent_relation_clauses c
      ++ determination_conflicts c edges ++ ([] : List (List Int))) = true := by
    rw [encode_dfa_id, hmode] at h
    exact h
  have hgoal : satAll (permAssign c f v) (onehot_color_clauses c
      ++ partition_by_accepting_clauses c apta
      ++ colors_parent_rel_coupling_clauses c apta
      ++ onehot_parent_relation_clauses c
      ++ determination_conflicts c edges ++ ([] : List (List Int))) = true →
      satAll (permAssign c f v) (encode_dfa_id apta c edges clique) = true := by
    intro hg
    rw [encode_dfa_id, hmode]
    exact hg
  apply hgoal
  simp only [satAll_append, Bool.and_eq_true] at hsat2 ⊢
  obtain ⟨⟨⟨⟨⟨hA, hB⟩, hC⟩, hD⟩, hE⟩, -⟩ := hsat2
  rw [satAll_onehot_color_iff] at hA
  rw [satAll_partition_iff] at hB
  rw [satAll_coupling_iff] at hC
  rw [satAll_onehot_parent_iff] at hD
  rw [satAll_determination_iff] at hE
  refine ⟨⟨⟨⟨⟨?_, ?_⟩, ?_⟩, ?_⟩, ?_⟩, satAll_nil _⟩
  · rw [satAll_onehot_color_iff]
    constructor
    · intro n hn
      obtain ⟨d, hd, hvd⟩ := hA.1 n hn
      obtain ⟨col, hcol, hfcol⟩ := hfsurj d hd
      refine ⟨col, hcol, ?_⟩
      rw [permAssign_color_node c f v hn hcol, hfcol]
      exact hvd
    · intro n hn i j hij hj
      have hi : i < c.n_colors := by omega
      rw [permAssign_color_node c f v hn hi, permAssign_color_node c f v hn hj]
      have hne : f i ≠ f j := fun he => absurd (hfinj i j hi hj he) (by omega)
      rcases Nat.lt_or_ge (f i) (f j) with hlt | hge
      · exact hA.2 n hn (f i) (f j) hlt (hflt j hj)
      · exact Or.symm (hA.2 n hn (f j) (f i) (by omega) (hflt i hi))
  · rw [satAll_partition_iff]
    intro col hcol
    have h2 := hB (f col) (hflt col hcol)
    constructor
    · intro n hn
      rw [permAssign_color_node c f v (hacc n hn) hcol,
        permAssign_color_accepting c f v hcol]
      exact h2.1 n hn
    · intro n hn
      rw [permAssign_color_node c f v (hrej n hn) hcol,
        permAssign_color_accepting c f v hcol]
      exact h2.2 n hn
  · rw [satAll_coupling_iff]
    intro node h1 h2 i hi j hj
    have hnode2 : node < apta.n_nodes := by omega
    have hnode : node < c.n_nodes := by omega
    have hp := hpar node h1 hnode2
    have hs := hsrc node h1 hnode2
    rw [permAssign_color_node c f v hp hi, permAssign_color_node c f v hnode hj,
      permAssign_parent_relation c f v hs hi hj]
    exact hC node h1 h2 (f i) (hflt i hi) (f j) (hflt j hj)
  · rw [satAll_onehot_parent_iff]
    constructor
    · intro t ht i hi
      obtain ⟨d, hd, hvd⟩ := hD.1 t ht (f i) (hflt i hi)
      obtain ⟨j, hj, hfj⟩ := hfsurj d hd
      refine ⟨j, hj, ?_⟩
      rw [permAssign_parent_relation c f v ht hi hj, hfj]
      exact hvd
    · intro t ht i hi a b hab hb
      have ha : a < c.n_colors := by omega
      rw [permAssign_parent_relation c f v ht hi ha,
        permAssign_parent_relation c f v ht hi hb]
      have hne : f a ≠ f b := fun he => absurd (hfinj a b ha hb he) (by omega)
      rcases Nat.lt_or_ge (f a) (f b) with hlt | hge
      · exact hD.2 t ht (f i) (hflt i hi) (f a) (f b) hlt (hflt b hb)
      · exact Or.symm (hD.2 t ht (f i) (hflt i hi) (f b) (f a) (by omega) (hflt a ha))
  · rw [satAll_determination_iff]
    intro e he col hcol
    rw [permAssign_color_node c f v (hedge e he).1 hcol,
      permAssign_color_node c f v (hedge e he).2 hcol]
    exact hE e he (f col) (hflt col hcol)

/-- Inductively seed the first `j` clique members with their colors: a
satisfying assignment of the base clause set can be transformed, one
transposition at a time, into one that additionally satisfies the clique
unit clauses for the first `j` members. -/
lemma clique_seed_sat_aux (apta : APTA) (c : Codec) (edges : List (Nat × Nat))
    (clique : List Nat)
    (hmode : c.symm_mode = none)
    (hann : apta.n_nodes ≤ c.n_nodes)
    (hacc : ∀ n ∈ apta.accepting, n < c.n_nodes)
    (hrej : ∀ n ∈ apta.rejecting, n < c.n_nodes)
    (hpar : ∀ node, 1 ≤ node → node < apta.n_nodes → apta.parent node < c.n_nodes)
    (hsrc : ∀ node, 1 ≤ node → node < apta.n_nodes → apta.source node < c.n_tokens)
    (hedge : ∀ e ∈ edges, e.1 < c.n_nodes ∧ e.2 < c.n_nodes)
    (hlen : clique.length ≤ c.n_colors)
    (hmem : ∀ x ∈ clique, x < c.n_nodes)
    (hpair : ∀ i j, i < clique.length → j < clique.length → i ≠ j →
      (clique.getD i 0, clique.getD j 0) ∈ edges
      ∨ (clique.getD j 0, clique.getD i 0) ∈ edges) :
    ∀ j, j ≤ clique.length →
      (∃ v, satAll v (encode_dfa_id apta c edges clique) = true) →
      ∃ v, satAll v (encode_dfa_id apta c edges clique) = true
        ∧ satAll v (symmetry_breaking c (clique.take j)) = true := by
  intro j
  induction j with
  | zero =>
    rintro - ⟨v, hv⟩
    refine ⟨v, hv, ?_⟩
    rw [List.take_zero]
    rfl
  | succ j ih =>
    intro hj1 hex
    obtain ⟨v, hbase, hunits⟩ := ih (by omega) hex
    have hjlen : j < clique.length := by omega
    have hjk : j < c.n_colors := by omega
    have hsem : satAll v (onehot_color_clauses c
        ++ partition_by_accepting_clauses c apta
        ++ colors_parent_rel_coupling_clauses c apta
        ++ onehot_parent_relation_clauses c
        ++ determination_conflicts c edges ++ ([] : List (List Int))) = true := by
      have hb2 := hbase
      rw [encode_dfa_id, hmode] at hb2
      exact hb2
    simp only [satAll_append, Bool.and_eq_true] at hsem
    obtain ⟨⟨⟨⟨⟨hA, -⟩, -⟩, -⟩, hE⟩, -⟩ := hsem
    rw [satAll_onehot_color_iff] at hA
    rw [satAll_determination_iff] at hE
    rw [satAll_units_iff] at hunits
    have hmjn : clique.getD j 0 < c.n_nodes := by
      rw [List.getD_eq_getElem _ _ hjlen]
      exact hmem _ (List.getElem_mem hjlen)
    obtain ⟨cj, hcjk, hvcj⟩ := hA.1 _ hmjn
    have hprev : ∀ i, i < j → v (c.color_node (clique.getD i 0) i) = true := by
      intro i hij
      have hitl : i < (clique.take j).length := by
        rw [List.length_take]; omega
      have h1 := hunits i hitl
      rw [List.getD_eq_getElem _ _ hitl, List.getElem_take] at h1
      rw [List.getD_eq_getElem _ _ (show i < clique.length by omega)]
      exact h1
    have hne : ∀ i, i < j → cj ≠ i := by
      intro i hij heq
      have hvi := hprev i hij
      rcases hpair j i (by omega) (by omega) (by omega) with he | he
      · have hd := hE _ he i (by omega)
        have hd1 : v (c.color_node (clique.getD j 0) i) = false
            ∨ v (c.color_node (clique.getD i 0) i) = false := hd
        rcases hd1 with hx | hx
        · rw [heq] at hvcj
          rw [hvcj] at hx
          exact Bool.noConfusion hx
        · rw [hvi] at hx
          exact Bool.noConfusion hx
      · have hd := hE _ he i (by omega)
        have hd1 : v (c.color_node (clique.getD i 0) i) = false
            ∨ v (c.color_node (clique.getD j 0) i) = false := hd
        rcases hd1 with hx | hx
        · rw [hvi] at hx
          exact Bool.noConfusion hx
        · rw [heq] at hvcj
          rw [hvcj] at hx
          exact Bool.noConfusion hx
    have hflt : ∀ x, x < c.n_colors → swapFun j cj x < c.n_colors :=
      fun x hx => swapFun_lt hjk hcjk x hx
    have hinv : ∀ x, swapFun j cj (swapFun j cj x) = x := swapFun_involutive j cj
    have hfinj : ∀ x y, x < c.n_colors → y < c.n_colors →
        swapFun j cj x = swapFun j cj y → x = y := by
      intro x y hx hy hxy
      have h2 := congrArg (swapFun j cj) hxy
      rwa [hinv, hinv] at h2
    have hfsurj : ∀ d, d < c.n_colors → ∃ x, x < c.n_colors ∧ swapFun j cj x = d :=
      fun d hd => ⟨swapFun j cj d, hflt d hd, hinv d⟩
    refine ⟨permAssign c (swapFun j cj) v,
      satAll_encode_permAssign apta c edges clique hmode hann hacc hrej hpar hsrc
        hedge v (swapFun j cj) hflt hfinj hfsurj hbase, ?_⟩
    rw [satAll_units_iff]
    intro i hi
    rw [List.length_take] at hi
    have hilen : i < clique.length := by omega
    have hik : i < c.n_colors := by omega
    have hitl : i < (clique.take (j + 1)).length := by rw [List.length_take]; omega
    rw [List.getD_eq_getElem _ _ hitl, List.getElem_take]
    have hin : clique[i] < c.n_nodes := hmem _ (List.getElem_mem hilen)
    rw [permAssign_color_node c (swapFun j cj) v hin hik]
    rcases Nat.lt_or_ge i j with hij | hij
    · have hfi : swapFun j cj i = i := by
        simp only [swapFun]
        rw [if_neg (by omega), if_neg (by have h3 := hne i hij; omega)]
      rw [hfi]
      have hp := hprev i hij
      rwa [List.getD_eq_getElem _ _ hilen] at hp
    · have hij2 : i = j := by omega
      subst hij2
      have hfi : swapFun i cj i = cj := by
        simp [swapFun]
      rw [hfi]
      have hv2 := hvcj
      rwa [List.getD_eq_getElem _ _ hjlen] at hv2

/-- C8: for every APTA, consistency graph, clique of that graph, and color
count at least the clique size, the base clause set (no symmetry breaking)
is satisfiable if and only if it stays satisfiable after conjoining the
clique unit clauses `ColorNode(member_i, i)`. -/
theorem C8_clique_seeding_preserves_satisfiability (apta : APTA) (c : Codec)
    (edges : List (Nat × Nat)) (clique : List Nat)
    (hmode : c.symm_mode = none)
    (hann : apta.n_nodes ≤ c.n_nodes)
    (hacc : ∀ n ∈ apta.accepting, n < c.n_nodes)
    (hrej : ∀ n ∈ apta.rejecting, n < c.n_nodes)
    (hpar : ∀ node, 1 ≤ node → node < apta.n_nodes → apta.parent node < c.n_nodes)
    (hsrc : ∀ node, 1 ≤ node → node < apta.n_nodes → apta.source node < c.n_tokens)
    (hedge : ∀ e ∈ edges, e.1 < c.n_nodes ∧ e.2 < c.n_nodes)
    (hlen : clique.length ≤ c.n_colors)
    (hmem : ∀ x ∈ clique, x < c.n_nodes)
    (hpair : ∀ i j, i < clique.length → j < clique.length → i ≠ j →
      (clique.getD i 0, clique.getD j 0) ∈ edges
      ∨ (clique.getD j 0, clique.getD i 0) ∈ edges) :
    (∃ v, satAll v (encode_dfa_id apta c edges clique) = true) ↔
    (∃ v, satAll v (encode_dfa_id apta c edges clique
        ++ symmetry_breaking c clique) = true) := by
  constructor
  · intro hex
    obtain ⟨v, h1, h2⟩ := clique_seed_sat_aux apta c edges clique hmode hann hacc
      hrej hpar hsrc hedge hlen hmem hpair clique.length (Nat.le_refl _) hex
    rw [List.take_length] at h2
    refine ⟨v, ?_⟩
    rw [satAll_append, h1, h2]
    rfl
  · rintro ⟨v, hv⟩
    rw [satAll_append, Bool.and_eq_true] at hv
    exact ⟨v, hv.1⟩

/-- Witness for C8 at the §8 scenario with the clique `[1, 2]`. -/
theorem C8_clique_seeding_preserves_satisfiability_witness :
    (∃ v, satAll v (encode_dfa_id apta6 codec8 cgraph6 clique8) = true) ↔
    (∃ v, satAll v (encode_dfa_id apta6 codec8 cgraph6 clique8
        ++ symmetry_breaking codec8 clique8) = true) :=
  C8_clique_seeding_preserves_satisfiability apta6 codec8 cgraph6 clique8
    rfl (by decide) (by decide) (by decide)
    (by intro node h1 h2; simp [apta6]; decide)
    (by intro node h1 h2; by_cases h : node = 1 <;> simp [apta6, h] <;> decide)
    (by decide) (by decide) (by decide)
    (by
      intro i j hi hj hne
      have hi2 : i < 2 := by simpa [clique8] using hi
      have hj2 : j < 2 := by simpa [clique8] using hj
      interval_cases i <;> interval_cases j <;> first | exact absurd rfl hne | decide)

end DfaIdentify
